import Mathlib

/-!
Verification of the Merge Reconciliation Engine embedded in the
"Merge Duplicate Contacts" workflow: duplicate detection by normalized
email, deterministic destination selection, field-by-field merge
(scalar newest-wins, set union, relation union), mutation planning
(update destination, archive sources), the test-mode sampler, and the
report builder.  Each definition below is a shallow embedding of the
corresponding JavaScript in the workflow's Code nodes.
-/

namespace MergeDup

/-- A JavaScript-ish value as stored in a parsed contact record:
null-or-undefined, a string, or an array of strings (tags and relation
page-id arrays are arrays of strings after parsing). -/
inductive Val where
  | vnull
  | vstr (s : String)
  | varr (xs : List String)
deriving DecidableEq

/-- Embeds the hasValue helper: null/undefined, blank strings and empty
arrays count as "no value" (a string is blank exactly when trimming it
leaves the empty string, that is when all its characters are
whitespace). -/
def hasValue : Val → Bool
  | .vnull => false
  | .vstr s => !(s.toList.all Char.isWhitespace)
  | .varr xs => !xs.isEmpty

/-- The array content of a value (relation and tag fields hold arrays
after parsing; anything else contributes no elements). -/
def arrOf : Val → List String
  | .varr xs => xs
  | _ => []

/-- Notion API property value types used by the field map. -/
inductive ApiType where
  | title
  | rich_text
  | email
  | phone_number
  | select
  | multi_select
deriving DecidableEq

/-- A Notion API property payload as built by toNotionProp or the
relation-union writer. -/
inductive NotionProp where
  | title (s : String)
  | rich_text (s : String)
  | email (s : String)
  | phone_number (s : String)
  | select (s : String)
  | multi_select (names : List String)
  | relation (ids : List String)
deriving DecidableEq

/-- JavaScript String(value) on the values that reach toNotionProp. -/
def jsToString : Val → String
  | .vnull => "null"
  | .vstr s => s
  | .varr xs => String.intercalate "," xs

/-- Embeds the toNotionProp helper of the Build Merge Plan node. -/
def toNotionProp : ApiType → Val → NotionProp
  | .title, v => .title (jsToString v)
  | .rich_text, v => .rich_text (jsToString v)
  | .email, v => .email (jsToString v)
  | .phone_number, v => .phone_number (jsToString v)
  | .select, v => .select (jsToString v)
  | .multi_select, v =>
      .multi_select (match v with
        | .varr xs => xs
        | x => [jsToString x])

/-- One entry of FIELD_MAP: incoming key, Notion property display name,
simplified read key, API type. -/
structure FieldMapping where
  key : String
  prop : String
  notionKey : String
  apiType : ApiType
deriving DecidableEq

/-- The FIELD_MAP table of the workflow, in declaration order. -/
def FIELD_MAP : List FieldMapping :=
  [ ⟨"email",            "Email",            "property_email",            .email⟩,
    ⟨"first_name",       "First name",       "property_first_name",       .rich_text⟩,
    ⟨"last_name",        "Last name",        "property_last_name",        .rich_text⟩,
    ⟨"company",          "Company Name",     "property_company_name",     .rich_text⟩,
    ⟨"email_marketing",  "Email Marketing",  "property_email_marketing",  .select⟩,
    ⟨"tags",             "Tags",             "property_tags",             .multi_select⟩,
    ⟨"street_address",   "Street Address",   "property_street_address",   .rich_text⟩,
    ⟨"street_address_2", "Address Line 2",   "property_address_line_2",   .rich_text⟩,
    ⟨"city",             "City",             "property_city",             .rich_text⟩,
    ⟨"state",            "State",            "property_state",            .rich_text⟩,
    ⟨"postal_code",      "Postal Code",      "property_postal_code",      .rich_text⟩,
    ⟨"country",          "Country",          "property_country",          .rich_text⟩,
    ⟨"phone",            "Phone",            "property_phone",            .phone_number⟩ ]

/-- One entry of RELATION_FIELDS: Notion display name and simplified
read key. -/
structure RelationField where
  prop : String
  key : String
deriving DecidableEq

/-- The RELATION_FIELDS table of the workflow (two-way relations on the
contact side), in declaration order. -/
def RELATION_FIELDS : List RelationField :=
  [ ⟨"Papers",                    "property_papers"⟩,
    ⟨"Client db",                 "property_client_db"⟩,
    ⟨"Sales pipeline",            "property_sales_pipeline"⟩,
    ⟨"Comms pipeline",            "property_comms_pipeline"⟩,
    ⟨"Partner pipeline",          "property_partner_pipeline"⟩,
    ⟨"WebDB: Book endorsements",  "property_web_db_book_endorsements"⟩ ]

/-- A parsed contact record as built by the Find Duplicates node:
store id, page url, created_time (parsed timestamp, milliseconds),
the normalized identity key (trimmed, lowercased email), and the field
store keyed by simplified read keys. -/
structure Contact where
  id : String
  url : String
  created_time : Nat
  email : String
  fields : String → Val

/-- Adds a contact to the email multimap exactly as the JS Map does:
append to the existing bucket, else append a fresh bucket (insertion
order of keys is first-occurrence order). -/
def insertByEmail (m : List (String × List Contact)) (c : Contact) :
    List (String × List Contact) :=
  if m.any (fun p => p.1 = c.email) then
    m.map (fun p => if p.1 = c.email then (p.1, p.2 ++ [c]) else p)
  else m ++ [(c.email, [c])]

/-- Groups contacts by normalized email, skipping records whose email is
empty, preserving input order inside each bucket. -/
def groupByEmail (cs : List Contact) : List (String × List Contact) :=
  cs.foldl (fun m c => if c.email = "" then m else insertByEmail m c) []

/-- Stable insertion used to sort a group ascending by created_time
(models the stable JS array sort with the date-difference comparator):
an element is inserted before the first element it is less than or
equal to, so earlier input stays first on ties. -/
def insertByCT (x : Contact) : List Contact → List Contact
  | [] => [x]
  | y :: ys =>
      if x.created_time ≤ y.created_time then x :: y :: ys
      else y :: insertByCT x ys

/-- Stable sort of a duplicate group ascending by created_time. -/
def sortByCT : List Contact → List Contact
  | [] => []
  | x :: xs => insertByCT x (sortByCT xs)

/-- Modelled from the spec: the destination the spec prescribes — the
first record in input order among those with the earliest createdAt. -/
def specDestination : List Contact → Option Contact
  | [] => none
  | x :: xs =>
      match specDestination xs with
      | none => some x
      | some m => if x.created_time ≤ m.created_time then some x else some m

/-- A duplicate group as produced by Find Duplicates: the shared
normalized email, the destination (oldest record), the remaining
sources in sorted order, and all records sorted ascending by
created_time. -/
structure DupGroup where
  email : String
  dest : Contact
  sources : List Contact
  allRecords : List Contact

/-- Embeds the grouping loop of Find Duplicates: keep buckets with at
least two records, sort each ascending by created_time, take the head
as destination and the rest as sources. -/
def findDuplicates (cs : List Contact) : List DupGroup :=
  (groupByEmail cs).filterMap (fun p =>
    if p.2.length < 2 then none
    else
      match sortByCT p.2 with
      | [] => none
      | d :: rest => some ⟨p.1, d, rest, d :: rest⟩)

/-- The collected source ids of the plan (allSourceIds in the JS). -/
def allSourceIds (cs : List Contact) : List String :=
  (findDuplicates cs).foldl (fun acc g => acc ++ g.sources.map (·.id)) []

/-! ### Field merge resolver (Build Merge Plan, per-group computation) -/

/-- State of the unitary-field merge loop: the current winning value,
the id of the record it came from when that record is not the
destination (null otherwise), and the winning created_time. -/
structure ScalarSt where
  finalVal : Val
  mergedFrom : Option String
  newestTime : Option Nat
deriving DecidableEq

/-- One iteration of the unitary-field loop: a record with a non-empty
value strictly newer than the current winner replaces it. -/
def scalarStep (dest : Contact) (nk : String) (st : ScalarSt) (rec : Contact) :
    ScalarSt :=
  let val := rec.fields nk
  if hasValue val && st.newestTime.all (fun nt => nt < rec.created_time) then
    ⟨val, if rec.id = dest.id then none else some rec.id, some rec.created_time⟩
  else st

/-- The unitary-field merge over all records of a group. -/
def scalarFold (dest : Contact) (nk : String) (recs : List Contact) : ScalarSt :=
  recs.foldl (scalarStep dest nk) ⟨.vnull, none, none⟩

/-- Adds an element to a duplicate-free accumulator, preserving first
insertion order (models JS Set.add). -/
def addUnique {α : Type} [DecidableEq α] (acc : List α) (x : α) : List α :=
  if x ∈ acc then acc else acc ++ [x]

/-- Union, in first-occurrence order and deduplicated, of the array
contents of a given field across all records of a group (models the
Set-building loops for tags and relations). -/
def unionOver (recs : List Contact) (key : String) : List String :=
  recs.foldl (fun acc r =>
    match r.fields key with
    | .varr xs => xs.foldl addUnique acc
    | _ => acc) []

/-- The cardinality of the set of elements of a list (size of the JS
Set built from it). -/
def dedupLen (xs : List String) : Nat := (xs.foldl addUnique []).length

/-- JS truthiness of the mergedFrom variable: null and the empty string
are falsy. -/
def mergedFromTruthy : Option String → Bool
  | none => false
  | some s => !(s = "")

/-- The mergedProps entries contributed by one FIELD_MAP entry:
multi_select fields get the deduplicated union across all records when
non-empty, other fields get the newest non-empty value when one
exists. -/
def fieldEntry (dest : Contact) (recs : List Contact) (fm : FieldMapping) :
    List (String × NotionProp) :=
  if fm.apiType = .multi_select then
    let u := unionOver recs fm.notionKey
    if u.isEmpty then [] else [(fm.prop, toNotionProp .multi_select (.varr u))]
  else
    let st := scalarFold dest fm.notionKey recs
    if hasValue st.finalVal then [(fm.prop, toNotionProp fm.apiType st.finalVal)]
    else []

/-- The fieldsMerged entries contributed by one FIELD_MAP entry: a
multi_select field is marked when the union is strictly larger than the
destination's original set; a unitary field is marked when the winning
value came from a (truthy-id) record other than the destination. -/
def fieldChanged (dest : Contact) (recs : List Contact) (fm : FieldMapping) :
    List String :=
  if fm.apiType = .multi_select then
    let u := unionOver recs fm.notionKey
    if u.isEmpty then []
    else if dedupLen (arrOf (dest.fields fm.notionKey)) < u.length then [fm.key]
    else []
  else
    let st := scalarFold dest fm.notionKey recs
    if hasValue st.finalVal && mergedFromTruthy st.mergedFrom then [fm.key]
    else []

/-- The mergedProps entry contributed by one relation field: the
deduplicated union of page ids across all records, when non-empty. -/
def relEntry (recs : List Contact) (rel : RelationField) :
    List (String × NotionProp) :=
  let u := unionOver recs rel.key
  if u.isEmpty then [] else [(rel.prop, .relation u)]

/-- The relationsChanged entry contributed by one relation field: marked
when the union is strictly larger than the destination's original
relation set. -/
def relChanged (dest : Contact) (recs : List Contact) (rel : RelationField) :
    List String :=
  let u := unionOver recs rel.key
  if u.isEmpty then []
  else if dedupLen (arrOf (dest.fields rel.key)) < u.length then [rel.prop]
  else []

/-- The FIELD_MAP part of mergedProps, in FIELD_MAP order. -/
def fmProps (g : DupGroup) : List (String × NotionProp) :=
  FIELD_MAP.flatMap (fieldEntry g.dest g.allRecords)

/-- Assoc-list lookup with the first-writer-wins discipline of a JS
object built by successive assignments to distinct keys. -/
def lookupProp : List (String × NotionProp) → String → Option NotionProp
  | [], _ => none
  | (k, v) :: rest, p => if k = p then some v else lookupProp rest p

/-- The Email Marketing default: injected exactly when the field-map
loop produced no Email Marketing entry. -/
def emailMarketingDefault (g : DupGroup) : List (String × NotionProp) :=
  match lookupProp (fmProps g) "Email Marketing" with
  | some _ => []
  | none => [("Email Marketing", toNotionProp .select (.vstr "Subscribed"))]

/-- The full mergedProps object of a group, in assignment order:
field-map entries, the Email Marketing default, the Identifier title
set to the group's identity key, then the relation unions. -/
def groupProps (g : DupGroup) : List (String × NotionProp) :=
  fmProps g ++ emailMarketingDefault g
    ++ [("Identifier", toNotionProp .title (.vstr g.email))]
    ++ RELATION_FIELDS.flatMap (relEntry g.allRecords)

/-- The fieldsMerged list of a group, in FIELD_MAP order. -/
def fieldsMergedOf (g : DupGroup) : List String :=
  FIELD_MAP.flatMap (fieldChanged g.dest g.allRecords)

/-- The relationsChanged list of a group, in RELATION_FIELDS order. -/
def relationsChangedOf (g : DupGroup) : List String :=
  RELATION_FIELDS.flatMap (relChanged g.dest g.allRecords)

/-! ### Mutation planner (Build Merge Plan, output items) -/

/-- The PATCH body of a mutation item: a properties update for the
destination, or the bare archived flag for a source. -/
inductive MutBody where
  | updateProps (properties : List (String × NotionProp))
  | archived (b : Bool)
deriving DecidableEq

/-- The denormalized backup snapshot carried by an archive item:
identity data plus every FIELD_MAP attribute (null made the empty
string). -/
structure SourceSnapshot where
  id : String
  url : String
  email : String
  created_time : Nat
  fields : List (String × Val)
deriving DecidableEq

/-- Builds the backup snapshot of a source record. -/
def snapshotOf (src : Contact) : SourceSnapshot :=
  ⟨src.id, src.url, src.email, src.created_time,
    FIELD_MAP.map (fun fm =>
      (fm.key, match src.fields fm.notionKey with
        | .vnull => .vstr ""
        | v => v))⟩

/-- The _meta block of a mutation item. -/
inductive MutMeta where
  | update (groupIdx : Nat) (email : String) (pageId : String) (destUrl : String)
      (fieldsMerged : List String) (sourceCount : Nat)
      (relationsChanged : List String)
  | archive (groupIdx : Nat) (email : String) (pageId : String)
      (sourceUrl : String) (sourceRecord : SourceSnapshot)
deriving DecidableEq

/-- The action string of a _meta block. -/
def MutMeta.action : MutMeta → String
  | .update .. => "update_contact"
  | .archive .. => "archive_source"

/-- The groupIdx of a _meta block. -/
def MutMeta.groupIdx : MutMeta → Nat
  | .update gi .. => gi
  | .archive gi .. => gi

/-- A planned mutation: target url, PATCH body, and _meta. -/
structure MutationItem where
  url : String
  body : MutBody
  meta : MutMeta
deriving DecidableEq

/-- True for the UpdateDestination item of group i. -/
def MutationItem.isUpdateFor (i : Nat) (it : MutationItem) : Bool :=
  match it.meta with
  | .update gi .. => gi = i
  | _ => false

/-- True for any UpdateDestination item. -/
def MutationItem.isUpdate (it : MutationItem) : Bool :=
  match it.meta with
  | .update .. => true
  | _ => false

/-- True for any ArchiveSource item. -/
def MutationItem.isArchive (it : MutationItem) : Bool :=
  match it.meta with
  | .archive .. => true
  | _ => false

/-- The fieldsMerged carried in a _meta block (empty for archives). -/
def MutationItem.fieldsMerged (it : MutationItem) : List String :=
  match it.meta with
  | .update _ _ _ _ fm _ _ => fm
  | _ => []

/-- The relationsChanged carried in a _meta block (empty for
archives). -/
def MutationItem.relationsChanged (it : MutationItem) : List String :=
  match it.meta with
  | .update _ _ _ _ _ _ rc => rc
  | _ => []

def NOTION_API : String := "https://api.notion.com/v1"

/-- The UpdateDestination item of a group. -/
def updateItem (i : Nat) (g : DupGroup) : MutationItem :=
  ⟨NOTION_API ++ "/pages/" ++ g.dest.id,
   .updateProps (groupProps g),
   .update i g.email g.dest.id g.dest.url (fieldsMergedOf g)
     g.sources.length (relationsChangedOf g)⟩

/-- The ArchiveSource item of one source record. -/
def archiveItem (i : Nat) (g : DupGroup) (src : Contact) : MutationItem :=
  ⟨NOTION_API ++ "/pages/" ++ src.id,
   .archived true,
   .archive i g.email src.id src.url (snapshotOf src)⟩

/-- The mutation items of one group: the unconditional destination
update followed by one archive per source. -/
def groupItems (i : Nat) (g : DupGroup) : List MutationItem :=
  updateItem i g :: g.sources.map (archiveItem i g)

/-- The group loop of Build Merge Plan, carrying the running group
index. -/
def planAux : Nat → List DupGroup → List MutationItem
  | _, [] => []
  | i, g :: rest => groupItems i g ++ planAux (i + 1) rest

/-- Embeds Build Merge Plan: zero groups produce zero items, otherwise
every group contributes its update and archive items in order. -/
def buildMergePlan (gs : List DupGroup) : List MutationItem :=
  if gs.isEmpty then [] else planAux 0 gs

/-! ### Sampler (Limit to Test Set) -/

def MAX_GROUPS : Nat := 3

def allActionTypes : List String := ["update_contact", "archive_source"]

/-- The groupActions map: group index to the set of action strings its
items carry, in first-occurrence order (models the JS Map of Sets). -/
def groupActions (items : List MutationItem) : List (Nat × List String) :=
  items.foldl (fun m it =>
    if m.any (fun p => p.1 = it.meta.groupIdx) then
      m.map (fun p =>
        if p.1 = it.meta.groupIdx then (p.1, addUnique p.2 it.meta.action) else p)
    else m ++ [(it.meta.groupIdx, [it.meta.action])]) []

/-- Stable insertion for the descending rank sort (a group goes before
another it compares greater-or-equal to, so earlier entries stay first
on ties, as the JS stable sort does). -/
def insertRank (x : Nat × List String) :
    List (Nat × List String) → List (Nat × List String)
  | [] => [x]
  | y :: ys =>
      if y.2.length ≤ x.2.length then x :: y :: ys
      else y :: insertRank x ys

/-- Ranks groups by the number of distinct action kinds, descending. -/
def rankSort : List (Nat × List String) → List (Nat × List String)
  | [] => []
  | x :: xs => insertRank x (rankSort xs)

/-- The greedy cover loop: stop once every action kind is covered or
MAX_GROUPS groups are selected; otherwise select a group exactly when
it still adds an uncovered kind. -/
def greedy : List (Nat × List String) → List Nat → List String →
    List Nat × List String
  | [], sel, cov => (sel, cov)
  | (gi, acts) :: rest, sel, cov =>
      if allActionTypes.length ≤ cov.length then (sel, cov)
      else if MAX_GROUPS ≤ sel.length then (sel, cov)
      else if (acts.filter (fun a => !cov.contains a)).isEmpty then
        greedy rest sel cov
      else greedy rest (addUnique sel gi) (acts.foldl addUnique cov)

/-- The sampler output: the filtered items, the selected group indices,
the uncovered action kinds, and the test summary tagged onto every
output item. -/
structure TestSetOut where
  items : List MutationItem
  selected : List Nat
  uncovered : List String
  summary : String
deriving DecidableEq

/-- Embeds Limit to Test Set. -/
def limitToTestSet (items : List MutationItem) : TestSetOut :=
  if items.isEmpty then ⟨[], [], [], ""⟩
  else
    let ga := groupActions items
    let sel := (greedy (rankSort ga) [] []).1
    let cov := (greedy (rankSort ga) [] []).2
    let out := items.filter (fun it => sel.contains it.meta.groupIdx)
    let uncovered := allActionTypes.filter (fun a => !cov.contains a)
    ⟨out, sel, uncovered,
     "TEST MODE: " ++ toString sel.length ++ "/" ++ toString ga.length
       ++ " groups, " ++ toString out.length ++ "/" ++ toString items.length
       ++ " API calls"
       ++ (if uncovered.isEmpty then ". All action types covered"
           else ". Not covered: " ++ String.intercalate ", " uncovered)⟩

/-! ### Reporter (Build Report) -/

/-- One input item of Build Report: the per-position combination of a
plan item's _meta with the HTTP response fields consulted by the
node. -/
structure ExecItem where
  meta : Option MutMeta
  error : Option String
  message : Option String
  statusCode : Option Nat
deriving DecidableEq

/-- The hasError test of Build Report: a truthy error field or a status
code of 400 or more. -/
def ExecItem.hasError (it : ExecItem) : Bool :=
  it.error.isSome || (match it.statusCode with
    | some c => 400 ≤ c
    | none => false)

/-- The error text recorded for a failed mutation. -/
def ExecItem.errText (it : ExecItem) : String :=
  match it.error with
  | some e => e
  | none =>
      match it.message with
      | some m => m
      | none =>
          "HTTP " ++ (match it.statusCode with
            | some c => toString c
            | none => "undefined")

/-- The per-group accumulator of Build Report. -/
structure GroupRep where
  email : String
  destId : Option String
  destUrl : Option String
  fieldsMerged : List String
  relationsChanged : List String
  sourcesArchived : List (String × String)
  errors : List (String × String × String)
deriving DecidableEq

/-- Applies one report input item to its group accumulator. -/
def applyExec (it : ExecItem) (m : MutMeta) (g : GroupRep) : GroupRep :=
  match m with
  | .update _ _ pageId destUrl fm _ rc =>
      { g with
        destId := some pageId, destUrl := some destUrl,
        fieldsMerged := fm, relationsChanged := rc,
        errors := if it.hasError then
            g.errors ++ [("update_contact", pageId, it.errText)]
          else g.errors }
  | .archive _ _ pageId sourceUrl _ =>
      { g with
        sourcesArchived := g.sourcesArchived ++ [(pageId, sourceUrl)],
        errors := if it.hasError then
            g.errors ++ [("archive_source", pageId, it.errText)]
          else g.errors }

/-- Builds the groupIdx-keyed map of group summaries, in
first-occurrence order. -/
def groupMapOf (items : List ExecItem) : List (Nat × GroupRep) :=
  items.foldl (fun acc it =>
    match it.meta with
    | none => acc
    | some m =>
        let key := m.groupIdx
        let acc' :=
          if acc.any (fun p => p.1 = key) then acc
          else acc ++ [(key, ⟨match m with
              | .update _ e .. => e
              | .archive _ e .. => e, none, none, [], [], [], []⟩)]
        acc'.map (fun p => if p.1 = key then (p.1, applyExec it m p.2) else p)) []

/-- One output row of Build Report. -/
inductive ReportRow where
  | emptySummary (message : String)
  | summary (duplicateGroups recordsArchived errors : Nat) (message : String)
  | merge (email : String) (destId destUrl : Option String)
      (fieldsMerged relationsChanged : List String)
      (sourcesArchived : List (String × String)) (status : String)
      (errors : List (String × String × String))
deriving DecidableEq

/-- Embeds Build Report: zero input items yield the terminal
no-duplicates summary; otherwise a totals summary followed by one row
per group with success or partial_failure status. -/
def buildReport (items : List ExecItem) : List ReportRow :=
  if items.isEmpty then
    [.emptySummary "No duplicates found — nothing to merge."]
  else
    let gm := groupMapOf items
    let totalArchived := gm.foldl (fun n p => n + p.2.sourcesArchived.length) 0
    let totalErrors := gm.foldl (fun n p => n + p.2.errors.length) 0
    .summary gm.length totalArchived totalErrors
        (if totalErrors = 0 then "All merges completed successfully."
         else toString totalErrors ++ " error(s) encountered — check group details.")
      :: gm.map (fun p =>
        .merge p.2.email p.2.destId p.2.destUrl p.2.fieldsMerged
          p.2.relationsChanged p.2.sourcesArchived
          (if p.2.errors.isEmpty then "success" else "partial_failure")
          p.2.errors)

/-! ### Lemmas: deduplicating unions -/

theorem mem_addUnique {α : Type} [DecidableEq α] (acc : List α) (x y : α) :
    y ∈ addUnique acc x ↔ y ∈ acc ∨ y = x := by
  unfold addUnique
  split
  · constructor
    · exact Or.inl
    · rintro (h | rfl) <;> assumption
  · simp

theorem nodup_addUnique {α : Type} [DecidableEq α] {acc : List α}
    (h : acc.Nodup) (x : α) : (addUnique acc x).Nodup := by
  unfold addUnique
  split
  · exact h
  · simp [List.nodup_append, h, *]

theorem mem_foldl_addUnique {α : Type} [DecidableEq α] (xs : List α) :
    ∀ (acc : List α) (y : α),
      y ∈ xs.foldl addUnique acc ↔ y ∈ acc ∨ y ∈ xs := by
  induction xs with
  | nil => simp
  | cons x xs ih =>
      intro acc y
      rw [List.foldl_cons, ih, mem_addUnique, List.mem_cons]
      constructor
      · rintro ((h | rfl) | h)
        · exact Or.inl h
        · exact Or.inr (Or.inl rfl)
        · exact Or.inr (Or.inr h)
      · rintro (h | rfl | h)
        · exact Or.inl (Or.inl h)
        · exact Or.inl (Or.inr rfl)
        · exact Or.inr h

theorem nodup_foldl_addUnique {α : Type} [DecidableEq α] (xs : List α) :
    ∀ {acc : List α}, acc.Nodup → (xs.foldl addUnique acc).Nodup := by
  induction xs with
  | nil => intro acc h; exact h
  | cons x xs ih => intro acc h; exact ih (nodup_addUnique h x)

theorem foldl_addUnique_disjoint {α : Type} [DecidableEq α] (xs : List α) :
    ∀ (acc : List α), (∀ x ∈ xs, x ∉ acc) → xs.Nodup →
      xs.foldl addUnique acc = acc ++ xs := by
  induction xs with
  | nil => simp
  | cons x xs ih =>
      intro acc hdisj hnd
      have hx : x ∉ acc := hdisj x (by simp)
      have h1 : addUnique acc x = acc ++ [x] := by simp [addUnique, hx]
      rw [List.foldl_cons, h1,
        ih (acc ++ [x])
          (fun z hz => by
            simp only [List.mem_append, List.mem_singleton]
            rintro (h | rfl)
            · exact hdisj z (by simp [hz]) h
            · exact (List.nodup_cons.mp hnd).1 hz)
          (List.nodup_cons.mp hnd).2]
      simp

theorem arrOf_fold_eq (v : Val) (acc : List String) :
    (match v with
      | .varr xs => xs.foldl addUnique acc
      | _ => acc) = (arrOf v).foldl addUnique acc := by
  cases v <;> rfl

theorem mem_unionOver_aux (recs : List Contact) (key : String) :
    ∀ (acc : List String) (y : String),
      y ∈ recs.foldl (fun acc r =>
          match r.fields key with
          | .varr xs => xs.foldl addUnique acc
          | _ => acc) acc
        ↔ y ∈ acc ∨ ∃ r ∈ recs, y ∈ arrOf (r.fields key) := by
  induction recs with
  | nil => simp
  | cons r recs ih =>
      intro acc y
      rw [List.foldl_cons, arrOf_fold_eq, ih, mem_foldl_addUnique]
      constructor
      · rintro ((h | h) | ⟨r', hr', h⟩)
        · exact Or.inl h
        · exact Or.inr ⟨r, by simp, h⟩
        · exact Or.inr ⟨r', by simp [hr'], h⟩
      · rintro (h | ⟨r', hr', h⟩)
        · exact Or.inl (Or.inl h)
        · rcases List.mem_cons.mp hr' with rfl | hr'
          · exact Or.inl (Or.inr h)
          · exact Or.inr ⟨r', hr', h⟩

theorem mem_unionOver (recs : List Contact) (key : String) (y : String) :
    y ∈ unionOver recs key ↔ ∃ r ∈ recs, y ∈ arrOf (r.fields key) := by
  unfold unionOver
  rw [mem_unionOver_aux]
  simp

theorem nodup_unionOver (recs : List Contact) (key : String) :
    (unionOver recs key).Nodup := by
  unfold unionOver
  generalize h : ([] : List String) = acc
  have hacc : acc.Nodup := by rw [← h]; exact List.nodup_nil
  clear h
  induction recs generalizing acc with
  | nil => exact hacc
  | cons r recs ih =>
      rw [List.foldl_cons, arrOf_fold_eq]
      exact ih _ (nodup_foldl_addUnique _ hacc)

/-! ### Lemmas: the stable sort and destination choice -/

theorem mem_insertByCT (x a : Contact) (l : List Contact) :
    a ∈ insertByCT x l ↔ a = x ∨ a ∈ l := by
  induction l with
  | nil => simp [insertByCT]
  | cons y ys ih =>
      unfold insertByCT
      split
      · simp
      · rw [List.mem_cons, ih, List.mem_cons]
        tauto

theorem mem_sortByCT (a : Contact) (l : List Contact) :
    a ∈ sortByCT l ↔ a ∈ l := by
  induction l with
  | nil => simp [sortByCT]
  | cons x xs ih =>
      unfold sortByCT
      rw [mem_insertByCT, ih, List.mem_cons]

theorem length_insertByCT (x : Contact) (l : List Contact) :
    (insertByCT x l).length = l.length + 1 := by
  induction l with
  | nil => rfl
  | cons y ys ih =>
      unfold insertByCT
      split
      · rfl
      · simp [ih]

theorem length_sortByCT (l : List Contact) :
    (sortByCT l).length = l.length := by
  induction l with
  | nil => rfl
  | cons x xs ih =>
      show (insertByCT x (sortByCT xs)).length = _
      rw [length_insertByCT, ih]
      rfl

theorem specDestination_none (l : List Contact) :
    specDestination l = none ↔ l = [] := by
  cases l with
  | nil => simp [specDestination]
  | cons x xs =>
      constructor
      · intro h
        exfalso
        simp only [specDestination] at h
        cases hx : specDestination xs with
        | none => simp only [hx] at h; exact Option.noConfusion h
        | some m =>
            simp only [hx] at h
            split at h <;> simp at h
      · intro h
        exact absurd h (by simp)

theorem head?_sortByCT (l : List Contact) :
    (sortByCT l).head? = specDestination l := by
  induction l with
  | nil => rfl
  | cons x xs ih =>
      show (insertByCT x (sortByCT xs)).head? = specDestination (x :: xs)
      simp only [specDestination]
      cases h : sortByCT xs with
      | nil =>
          have hs : specDestination xs = none := by rw [← ih, h]; rfl
          simp only [hs, insertByCT]
          rfl
      | cons y ys =>
          have hs : specDestination xs = some y := by rw [← ih, h]; rfl
          simp only [hs, insertByCT]
          split <;> rfl

theorem specDestination_spec (l : List Contact) (d : Contact)
    (h : specDestination l = some d) :
    d ∈ l ∧ ∀ r ∈ l, d.created_time ≤ r.created_time := by
  induction l generalizing d with
  | nil => simp [specDestination] at h
  | cons x xs ih =>
      simp only [specDestination] at h
      cases hx : specDestination xs with
      | none =>
          simp only [hx, Option.some.injEq] at h
          subst h
          have hnil : xs = [] := (specDestination_none xs).mp hx
          subst hnil
          exact ⟨by simp, by simp⟩
      | some m =>
          simp only [hx] at h
          rcases ih m hx with ⟨hm, hmin⟩
          by_cases hle : x.created_time ≤ m.created_time
          · rw [if_pos hle, Option.some.injEq] at h
            subst h
            refine ⟨by simp, ?_⟩
            intro r hr
            rcases List.mem_cons.mp hr with rfl | hr
            · exact Nat.le_refl _
            · exact Nat.le_trans hle (hmin r hr)
          · rw [if_neg hle, Option.some.injEq] at h
            subst h
            refine ⟨List.mem_cons_of_mem _ hm, ?_⟩
            intro r hr
            rcases List.mem_cons.mp hr with rfl | hr
            · exact Nat.le_of_not_le hle
            · exact hmin r hr

theorem sortByCT_all_ties (l : List Contact)
    (h : ∀ a ∈ l, ∀ b ∈ l, a.created_time = b.created_time) :
    sortByCT l = l := by
  induction l with
  | nil => rfl
  | cons x xs ih =>
      unfold sortByCT
      rw [ih (fun a ha b hb => h a (by simp [ha]) b (by simp [hb]))]
      cases xs with
      | nil => rfl
      | cons y ys =>
          unfold insertByCT
          rw [if_pos]
          exact Nat.le_of_eq (h x (by simp) y (by simp))

/-! ### Lemmas: the unitary-field merge loop -/

/-- The replacement test of the unitary-field loop: a non-empty value
on a record strictly newer than the current threshold. -/
def beats (nk : String) (t? : Option Nat) (r : Contact) : Bool :=
  hasValue (r.fields nk) && t?.all (fun nt => nt < r.created_time)

/-- The loop state after a record wins the unitary-field loop. -/
def winnerSt (dest : Contact) (nk : String) (w : Contact) : ScalarSt :=
  ⟨w.fields nk, if w.id = dest.id then none else some w.id, some w.created_time⟩

/-- The record whose value the unitary-field loop keeps, starting from
threshold t?: the first record attaining the maximum created_time among
qualifying value-holders. -/
def pickWinner (nk : String) : Option Nat → List Contact → Option Contact
  | _, [] => none
  | t?, r :: rs =>
      if beats nk t? r then
        match pickWinner nk (some r.created_time) rs with
        | none => some r
        | some w => some w
      else pickWinner nk t? rs

theorem scalarStep_eq (dest : Contact) (nk : String) (st : ScalarSt)
    (r : Contact) :
    scalarStep dest nk st r =
      if beats nk st.newestTime r then winnerSt dest nk r else st := rfl

theorem foldl_scalarStep_eq (dest : Contact) (nk : String) (l : List Contact) :
    ∀ (st : ScalarSt),
      l.foldl (scalarStep dest nk) st =
        match pickWinner nk st.newestTime l with
        | none => st
        | some w => winnerSt dest nk w := by
  induction l with
  | nil => intro st; rfl
  | cons r rs ih =>
      intro st
      rw [List.foldl_cons, scalarStep_eq]
      cases hb : beats nk st.newestTime r with
      | true =>
          rw [if_pos rfl]
          have hw : (winnerSt dest nk r).newestTime = some r.created_time := rfl
          rw [ih (winnerSt dest nk r), hw]
          simp only [pickWinner, hb, if_pos]
          cases pickWinner nk (some r.created_time) rs <;> rfl
      | false =>
          rw [if_neg (by simp [hb])]
          rw [ih st]
          simp only [pickWinner, hb]
          rfl

theorem scalarFold_eq (dest : Contact) (nk : String) (recs : List Contact) :
    scalarFold dest nk recs =
      match pickWinner nk none recs with
      | none => ⟨.vnull, none, none⟩
      | some w => winnerSt dest nk w :=
  foldl_scalarStep_eq dest nk recs ⟨.vnull, none, none⟩

theorem pickWinner_none_spec (nk : String) (l : List Contact) :
    ∀ (t? : Option Nat), pickWinner nk t? l = none →
      ∀ r ∈ l, hasValue (r.fields nk) = true →
        t?.all (fun nt => nt < r.created_time) = true → False := by
  induction l with
  | nil => intro t? _ r hr; simp at hr
  | cons x xs ih =>
      intro t? h r hr hv ht
      cases hb : beats nk t? x with
      | true =>
          simp only [pickWinner, hb, if_pos] at h
          cases hp : pickWinner nk (some x.created_time) xs <;>
            rw [hp] at h <;> exact Option.noConfusion h
      | false =>
          simp only [pickWinner, hb] at h
          rcases List.mem_cons.mp hr with rfl | hr
          · have hbt : beats nk t? r = true := by simp [beats, hv, ht]
            rw [hb] at hbt
            exact Bool.noConfusion hbt
          · exact ih t? (by simpa using h) r hr hv ht

theorem pickWinner_spec (nk : String) (l : List Contact) :
    ∀ (t? : Option Nat) (w : Contact), pickWinner nk t? l = some w →
      w ∈ l ∧ hasValue (w.fields nk) = true ∧
      t?.all (fun nt => nt < w.created_time) = true ∧
      ∀ r ∈ l, hasValue (r.fields nk) = true →
        t?.all (fun nt => nt < r.created_time) = true →
        r.created_time ≤ w.created_time := by
  induction l with
  | nil => intro t? w h; simp [pickWinner] at h
  | cons x xs ih =>
      intro t? w h
      cases hb : beats nk t? x with
      | true =>
          have hbx := hb
          simp only [beats, Bool.and_eq_true] at hbx
          simp only [pickWinner, hb, if_pos] at h
          cases hp : pickWinner nk (some x.created_time) xs with
          | none =>
              rw [hp] at h
              cases h
              refine ⟨by simp, hbx.1, hbx.2, ?_⟩
              intro r hr hv ht
              rcases List.mem_cons.mp hr with rfl | hr
              · exact Nat.le_refl _
              · by_cases hlt : x.created_time < r.created_time
                · exact (pickWinner_none_spec nk xs (some x.created_time)
                    hp r hr hv (by simpa using hlt)).elim
                · exact Nat.le_of_not_lt hlt
          | some w' =>
              rw [hp] at h
              cases h
              rcases ih (some x.created_time) w hp with ⟨hmem, hv, hgt, hmax⟩
              have hxw : x.created_time < w.created_time := by simpa using hgt
              refine ⟨List.mem_cons_of_mem _ hmem, hv, ?_, ?_⟩
              · cases t? with
                | none => rfl
                | some t =>
                    have : t < x.created_time := by simpa using hbx.2
                    simpa using Nat.lt_trans this hxw
              · intro r hr hrv hrt
                rcases List.mem_cons.mp hr with rfl | hr
                · exact Nat.le_of_lt hxw
                · by_cases hlt : x.created_time < r.created_time
                  · exact hmax r hr hrv (by simpa using hlt)
                  · exact Nat.le_trans (Nat.le_of_not_lt hlt) (Nat.le_of_lt hxw)
      | false =>
          simp only [pickWinner, hb] at h
          rcases ih t? w (by simpa using h) with ⟨hmem, hv, ht, hmax⟩
          refine ⟨List.mem_cons_of_mem _ hmem, hv, ht, ?_⟩
          intro r hr hrv hrt
          rcases List.mem_cons.mp hr with rfl | hr
          · have hbt : beats nk t? r = true := by simp [beats, hrv, hrt]
            rw [hb] at hbt
            exact Bool.noConfusion hbt
          · exact hmax r hr hrv hrt

/-- When no record of the group has a value for the field, the
unitary-field loop keeps the initial null state. -/
theorem scalarFold_no_holder (dest : Contact) (nk : String)
    (recs : List Contact)
    (h : ∀ r ∈ recs, hasValue (r.fields nk) = false) :
    scalarFold dest nk recs = ⟨.vnull, none, none⟩ := by
  rw [scalarFold_eq]
  cases hp : pickWinner nk none recs with
  | none => rfl
  | some w =>
      rcases pickWinner_spec nk recs none w hp with ⟨hmem, hv, _, _⟩
      rw [h w hmem] at hv
      exact Bool.noConfusion hv

/-- When some record of the group has a value for the field, the
unitary-field loop ends in the state of a value-holding record whose
created_time is maximal among value-holders. -/
theorem scalarFold_holder (dest : Contact) (nk : String)
    (recs : List Contact) (r₀ : Contact) (hr₀ : r₀ ∈ recs)
    (hv₀ : hasValue (r₀.fields nk) = true) :
    ∃ w ∈ recs, hasValue (w.fields nk) = true ∧
      (∀ r ∈ recs, hasValue (r.fields nk) = true →
        r.created_time ≤ w.created_time) ∧
      scalarFold dest nk recs = winnerSt dest nk w := by
  rw [scalarFold_eq]
  cases hp : pickWinner nk none recs with
  | none =>
      exact (pickWinner_none_spec nk recs none hp r₀ hr₀ hv₀ rfl).elim
  | some w =>
      rcases pickWinner_spec nk recs none w hp with ⟨hmem, hv, _, hmax⟩
      exact ⟨w, hmem, hv, fun r hr hrv => hmax r hr hrv rfl, rfl⟩

/-! ### Lemmas: looking up mergedProps entries -/

theorem lookupProp_append (a b : List (String × NotionProp)) (k : String) :
    lookupProp (a ++ b) k =
      match lookupProp a k with
      | some v => some v
      | none => lookupProp b k := by
  induction a with
  | nil => rfl
  | cons e a ih =>
      by_cases hk : e.1 = k
      · simp only [List.cons_append, lookupProp, hk, if_pos]
      · simp only [List.cons_append, lookupProp, hk, if_neg, ite_false]
        exact ih

theorem lookupProp_none_of_keys (ps : List (String × NotionProp)) (k : String)
    (h : ∀ e ∈ ps, e.1 ≠ k) : lookupProp ps k = none := by
  induction ps with
  | nil => rfl
  | cons e a ih =>
      simp only [lookupProp, h e (by simp), if_neg]
      exact ih (fun e' he' => h e' (List.mem_cons_of_mem _ he'))

theorem lookupProp_flatMap_none {α : Type} (L : List α)
    (f : α → List (String × NotionProp)) (k : String)
    (h : ∀ x ∈ L, ∀ e ∈ f x, e.1 ≠ k) :
    lookupProp (L.flatMap f) k = none := by
  apply lookupProp_none_of_keys
  intro e he
  rcases List.mem_flatMap.mp he with ⟨x, hx, he⟩
  exact h x hx e he

theorem lookupProp_flatMap_split {α : Type} (L₁ L₂ : List α) (x : α)
    (f : α → List (String × NotionProp)) (k : String)
    (h₁ : ∀ y ∈ L₁, ∀ e ∈ f y, e.1 ≠ k)
    (h₂ : ∀ y ∈ L₂, ∀ e ∈ f y, e.1 ≠ k) :
    lookupProp ((L₁ ++ x :: L₂).flatMap f) k = lookupProp (f x) k := by
  rw [List.flatMap_append, lookupProp_append,
    lookupProp_flatMap_none L₁ f k h₁, List.flatMap_cons, lookupProp_append,
    lookupProp_flatMap_none L₂ f k h₂]
  cases lookupProp (f x) k <;> rfl

theorem fieldEntry_keys (dest : Contact) (recs : List Contact)
    (fm : FieldMapping) :
    ∀ e ∈ fieldEntry dest recs fm, e.1 = fm.prop := by
  intro e he
  simp only [fieldEntry] at he
  repeat' split at he
  all_goals simp_all

theorem relEntry_keys (recs : List Contact) (rel : RelationField) :
    ∀ e ∈ relEntry recs rel, e.1 = rel.prop := by
  intro e he
  simp only [relEntry] at he
  repeat' split at he
  all_goals simp_all

theorem fieldChanged_sub (dest : Contact) (recs : List Contact)
    (fm : FieldMapping) :
    ∀ k ∈ fieldChanged dest recs fm, k = fm.key := by
  intro k hk
  simp only [fieldChanged] at hk
  repeat' split at hk
  all_goals simp_all

theorem relChanged_sub (dest : Contact) (recs : List Contact)
    (rel : RelationField) :
    ∀ k ∈ relChanged dest recs rel, k = rel.prop := by
  intro k hk
  simp only [relChanged] at hk
  repeat' split at hk
  all_goals simp_all

theorem FIELD_MAP_props_nodup : (FIELD_MAP.map (·.prop)).Nodup := by decide

theorem FIELD_MAP_keys_nodup : (FIELD_MAP.map (·.key)).Nodup := by decide

theorem RELATION_props_nodup : (RELATION_FIELDS.map (·.prop)).Nodup := by
  decide

theorem FIELD_MAP_prop_ne_identifier :
    ∀ fm ∈ FIELD_MAP, fm.prop ≠ "Identifier" := by decide

theorem FIELD_MAP_prop_ne_rel :
    ∀ fm ∈ FIELD_MAP, ∀ rel ∈ RELATION_FIELDS, fm.prop ≠ rel.prop := by decide

theorem FIELD_MAP_em_key :
    ∀ fm ∈ FIELD_MAP, fm.prop = "Email Marketing" → fm.key = "email_marketing" := by
  decide

theorem RELATION_prop_ne_em :
    ∀ rel ∈ RELATION_FIELDS, rel.prop ≠ "Email Marketing" := by decide

theorem RELATION_prop_ne_identifier :
    ∀ rel ∈ RELATION_FIELDS, rel.prop ≠ "Identifier" := by decide

/-- Splits a Nodup key list around a distinguished member. -/
theorem props_ne_of_nodup {α : Type} {g : α → String} {L₁ L₂ : List α} {x : α}
    (h : ((L₁ ++ x :: L₂).map g).Nodup) :
    (∀ y ∈ L₁, g y ≠ g x) ∧ (∀ y ∈ L₂, g y ≠ g x) := by
  rw [List.map_append, List.nodup_append] at h
  rcases h with ⟨_, h₂, hd⟩
  rw [List.map_cons, List.nodup_cons] at h₂
  constructor
  · intro y hy heq
    exact (List.disjoint_left.mp hd (List.mem_map_of_mem _ hy))
      (by simp [heq])
  · intro y hy heq
    exact h₂.1 (heq ▸ List.mem_map_of_mem _ hy)

/-- Looking up a FIELD_MAP property in the field-map part of
mergedProps reduces to that field's own entry. -/
theorem lookup_fmProps (g : DupGroup) (fm : FieldMapping)
    (hfm : fm ∈ FIELD_MAP) :
    lookupProp (fmProps g) fm.prop =
      lookupProp (fieldEntry g.dest g.allRecords fm) fm.prop := by
  rcases List.append_of_mem hfm with ⟨L₁, L₂, hsplit⟩
  have hnd := FIELD_MAP_props_nodup
  rw [hsplit] at hnd
  rcases props_ne_of_nodup hnd with ⟨h₁, h₂⟩
  unfold fmProps
  rw [hsplit]
  exact lookupProp_flatMap_split L₁ L₂ fm _ fm.prop
    (fun y hy e he => by rw [fieldEntry_keys _ _ _ e he]; exact h₁ y hy)
    (fun y hy e he => by rw [fieldEntry_keys _ _ _ e he]; exact h₂ y hy)

theorem lookupProp_append_some {a b : List (String × NotionProp)}
    {k : String} {v : NotionProp} (h : lookupProp a k = some v) :
    lookupProp (a ++ b) k = some v := by
  rw [lookupProp_append, h]

theorem lookupProp_append_none {a b : List (String × NotionProp)}
    {k : String} (h : lookupProp a k = none) :
    lookupProp (a ++ b) k = lookupProp b k := by
  rw [lookupProp_append, h]

theorem groupProps_eq (g : DupGroup) :
    groupProps g =
      fmProps g ++ (emailMarketingDefault g
        ++ ([("Identifier", toNotionProp .title (.vstr g.email))]
          ++ RELATION_FIELDS.flatMap (relEntry g.allRecords))) := by
  unfold groupProps
  simp [List.append_assoc]

/-- Looking up a FIELD_MAP property in the full mergedProps: the
field's own entry when present, else the Email Marketing default for
that property, else absent. -/
theorem lookup_groupProps_fm (g : DupGroup) (fm : FieldMapping)
    (hfm : fm ∈ FIELD_MAP) :
    lookupProp (groupProps g) fm.prop =
      match lookupProp (fieldEntry g.dest g.allRecords fm) fm.prop with
      | some v => some v
      | none =>
          if fm.prop = "Email Marketing" then
            some (toNotionProp .select (.vstr "Subscribed"))
          else none := by
  rw [groupProps_eq]
  cases hf : lookupProp (fieldEntry g.dest g.allRecords fm) fm.prop with
  | some v =>
      exact lookupProp_append_some (by rw [lookup_fmProps g fm hfm]; exact hf)
  | none =>
      have h1 : lookupProp (fmProps g) fm.prop = none := by
        rw [lookup_fmProps g fm hfm]; exact hf
      rw [lookupProp_append_none h1]
      by_cases hem : fm.prop = "Email Marketing"
      · have hd : emailMarketingDefault g =
            [("Email Marketing", toNotionProp .select (.vstr "Subscribed"))] := by
          unfold emailMarketingDefault
          rw [← hem, h1]
        rw [hd]
        simp [lookupProp, hem]
      · have hd : lookupProp (emailMarketingDefault g) fm.prop = none := by
          unfold emailMarketingDefault
          cases lookupProp (fmProps g) "Email Marketing" with
          | some v => rfl
          | none => simp [lookupProp, Ne.symm hem]
        rw [lookupProp_append_none hd]
        have hid : lookupProp
            [("Identifier", toNotionProp .title (.vstr g.email))] fm.prop
              = none := by
          simp [lookupProp, Ne.symm (FIELD_MAP_prop_ne_identifier fm hfm)]
        rw [lookupProp_append_none hid]
        have hrel : lookupProp (RELATION_FIELDS.flatMap (relEntry g.allRecords))
            fm.prop = none :=
          lookupProp_flatMap_none _ _ _ (fun rel hrel e he => by
            rw [relEntry_keys _ _ e he]
            exact fun h => FIELD_MAP_prop_ne_rel fm hfm rel hrel h.symm)
        rw [hrel]
        simp [hem]

/-- Looking up a relation property in the full mergedProps reduces to
that relation's own union entry. -/
theorem lookup_groupProps_rel (g : DupGroup) (rel : RelationField)
    (hrel : rel ∈ RELATION_FIELDS) :
    lookupProp (groupProps g) rel.prop =
      lookupProp (relEntry g.allRecords rel) rel.prop := by
  rw [groupProps_eq]
  have h1 : lookupProp (fmProps g) rel.prop = none :=
    lookupProp_flatMap_none _ _ _ (fun fm hfm e he => by
      rw [fieldEntry_keys _ _ _ e he]
      exact FIELD_MAP_prop_ne_rel fm hfm rel hrel)
  rw [lookupProp_append_none h1]
  have hd : lookupProp (emailMarketingDefault g) rel.prop = none := by
    unfold emailMarketingDefault
    cases lookupProp (fmProps g) "Email Marketing" with
    | some v => rfl
    | none => simp [lookupProp, Ne.symm (RELATION_prop_ne_em rel hrel)]
  rw [lookupProp_append_none hd]
  have hid : lookupProp
      [("Identifier", toNotionProp .title (.vstr g.email))] rel.prop
        = none := by
    simp [lookupProp, Ne.symm (RELATION_prop_ne_identifier rel hrel)]
  rw [lookupProp_append_none hid]
  rcases List.append_of_mem hrel with ⟨L₁, L₂, hsplit⟩
  have hnd := RELATION_props_nodup
  rw [hsplit] at hnd
  rcases props_ne_of_nodup hnd with ⟨h₁, h₂⟩
  rw [hsplit]
  refine lookupProp_flatMap_split L₁ L₂ rel _ rel.prop ?_ ?_
  · exact fun y hy e he => by rw [relEntry_keys _ _ e he]; exact h₁ y hy
  · exact fun y hy e he => by rw [relEntry_keys _ _ e he]; exact h₂ y hy

/-- The Identifier entry of mergedProps always holds the group's
identity key. -/
theorem lookup_groupProps_identifier (g : DupGroup) :
    lookupProp (groupProps g) "Identifier" =
      some (toNotionProp .title (.vstr g.email)) := by
  rw [groupProps_eq]
  have h1 : lookupProp (fmProps g) "Identifier" = none :=
    lookupProp_flatMap_none _ _ _ (fun fm hfm e he => by
      rw [fieldEntry_keys _ _ _ e he]
      exact FIELD_MAP_prop_ne_identifier fm hfm)
  rw [lookupProp_append_none h1]
  have hd : lookupProp (emailMarketingDefault g) "Identifier" = none := by
    unfold emailMarketingDefault
    cases lookupProp (fmProps g) "Email Marketing" with
    | some v => rfl
    | none => simp [lookupProp]
  rw [lookupProp_append_none hd]
  rfl

/-! ### Lemmas: the mutation plan -/

theorem countP_groupItems_update (i j : Nat) (g : DupGroup) :
    (groupItems j g).countP (MutationItem.isUpdateFor i) =
      if j = i then 1 else 0 := by
  unfold groupItems
  rw [List.countP_cons]
  have harch : (g.sources.map (archiveItem j g)).countP
      (MutationItem.isUpdateFor i) = 0 := by
    rw [List.countP_eq_zero]
    intro it hit
    rcases List.mem_map.mp hit with ⟨src, _, rfl⟩
    simp [MutationItem.isUpdateFor, archiveItem]
  rw [harch]
  by_cases hj : j = i
  · subst hj
    simp [MutationItem.isUpdateFor, updateItem]
  · simp [MutationItem.isUpdateFor, updateItem, hj]

theorem countP_planAux_update (gs : List DupGroup) :
    ∀ (k i : Nat),
      (planAux k gs).countP (MutationItem.isUpdateFor i) =
        if k ≤ i ∧ i < k + gs.length then 1 else 0 := by
  induction gs with
  | nil =>
      intro k i
      simp only [planAux, List.length_nil, List.countP_nil]
      rw [if_neg (by omega)]
  | cons g rest ih =>
      intro k i
      show ((groupItems k g ++ planAux (k + 1) rest).countP
        (MutationItem.isUpdateFor i)) = _
      rw [List.countP_append, countP_groupItems_update, ih (k + 1) i]
      simp only [List.length_cons]
      by_cases hk : k = i
      · subst hk
        rw [if_pos rfl, if_neg (by omega), if_pos (by omega)]
      · rw [if_neg hk]
        by_cases h2 : k + 1 ≤ i ∧ i < k + 1 + rest.length
        · rw [if_pos h2, if_pos (by omega)]
        · rw [if_neg h2, if_neg (by omega)]

theorem planAux_archive_body (gs : List DupGroup) :
    ∀ (i : Nat) (it : MutationItem), it ∈ planAux i gs →
      it.isArchive = true → it.body = .archived true := by
  induction gs with
  | nil => intro i it h; simp [planAux] at h
  | cons g rest ih =>
      intro i it h harch
      rcases List.mem_append.mp h with h | h
      · unfold groupItems at h
        rcases List.mem_cons.mp h with rfl | h
        · simp [MutationItem.isArchive, updateItem] at harch
        · rcases List.mem_map.mp h with ⟨src, _, rfl⟩
          rfl
      · exact ih (i + 1) it h harch

/-! ### C1 -/

/-- Counterexample input for C1: a duplicate pair whose destination
already holds every value (the source adds nothing). -/
def cex1dest : Contact :=
  ⟨"d1", "u1", 0, "a@b.c",
   fun k => if k = "property_phone" then .vstr "555" else .vnull⟩

def cex1src : Contact := ⟨"s1", "u2", 5, "a@b.c", fun _ => .vnull⟩

def cex1g : DupGroup := ⟨"a@b.c", cex1dest, [cex1src], [cex1dest, cex1src]⟩

/-- C1 counterexample: a group whose changedAttributes is empty (no
field merged, no relation changed) still gets an UpdateDestination
intent, so the planner does not emit updates only when
changedAttributes is non-empty. -/
theorem c1_update_emitted_with_empty_changeset :
    (buildMergePlan [cex1g]).countP (MutationItem.isUpdateFor 0) = 1
      ∧ ∀ it ∈ buildMergePlan [cex1g], it.isUpdate = true →
          it.fieldsMerged = [] ∧ it.relationsChanged = [] := by
  decide

/-- C1 (amended): the Mutation Planner emits exactly one
UpdateDestination intent per duplicate group unconditionally — even
when the group's changedAttributes set is empty — so a group whose
destination already holds the union of all information still produces
an update mutation. -/
theorem c1_update_always_emitted (gs : List DupGroup) (i : Nat)
    (hi : i < gs.length) :
    (buildMergePlan gs).countP (MutationItem.isUpdateFor i) = 1 := by
  unfold buildMergePlan
  cases gs with
  | nil => simp at hi
  | cons g rest =>
      rw [if_neg (by simp)]
      rw [countP_planAux_update (g :: rest) 0 i]
      rw [if_pos ⟨Nat.zero_le _, by simpa using hi⟩]

/-- C1 amended witness: on the counterexample input itself, group 0
gets exactly one update intent. -/
theorem c1_update_always_emitted_witness :
    (buildMergePlan [cex1g]).countP (MutationItem.isUpdateFor 0) = 1 :=
  c1_update_always_emitted [cex1g] 0 (by decide)

/-! ### C10 -/

/-- C10: every ArchiveSource intent of the Mutation Planner carries the
request body archived = true and nothing else — archiving a source
never writes any attribute value (attribute data appears only in the
backup snapshot inside _meta). -/
theorem c10_archive_body_pure (gs : List DupGroup) (it : MutationItem)
    (hmem : it ∈ buildMergePlan gs) (harch : it.isArchive = true) :
    it.body = .archived true := by
  unfold buildMergePlan at hmem
  split at hmem
  · simp at hmem
  · exact planAux_archive_body gs 0 it hmem harch

def w10dest : Contact := ⟨"d", "ud", 0, "e@x.y", fun _ => .vnull⟩

def w10src : Contact := ⟨"s", "us", 1, "e@x.y", fun _ => .vnull⟩

def w10g : DupGroup := ⟨"e@x.y", w10dest, [w10src], [w10dest, w10src]⟩

/-- C10 witness: the archive item of a concrete plan has the bare
archived body. -/
theorem c10_archive_body_pure_witness :
    ((buildMergePlan [w10g]).get ⟨1, by decide⟩).body = .archived true :=
  c10_archive_body_pure [w10g] _ (List.get_mem _ 1 (by decide)) (by decide)

/-! ### C9 -/

/-- C9: an input with no duplicate bucket (in particular the empty
input) makes Find Duplicates emit nothing, the planner emit zero
mutation intents, and the report state that no duplicates were found —
a terminal state with zero errors, not a failure. -/
theorem c9_empty_input_terminal (cs : List Contact)
    (h : ∀ p ∈ groupByEmail cs, p.2.length < 2) :
    findDuplicates cs = []
      ∧ buildMergePlan (findDuplicates cs) = []
      ∧ buildReport [] =
          [.emptySummary "No duplicates found — nothing to merge."] := by
  have hfd : findDuplicates cs = [] := by
    unfold findDuplicates
    rw [List.filterMap_eq_nil_iff]
    intro p hp
    rw [if_pos (h p hp)]
  exact ⟨hfd, by rw [hfd]; rfl, rfl⟩

/-- C9 witness: the empty input. -/
theorem c9_empty_input_terminal_witness :
    findDuplicates [] = []
      ∧ buildMergePlan (findDuplicates []) = []
      ∧ buildReport [] =
          [.emptySummary "No duplicates found — nothing to merge."] :=
  c9_empty_input_terminal [] (by simp [groupByEmail])

/-! ### C3 -/

/-- C3: the constructed duplicate group for a bucket with at least two
records is in the Find Duplicates output, its destination is exactly
the spec's destination (first record in input order among those with
the earliest created_time), and an all-ties bucket keeps its input
order. Determinism is witnessed by the whole pipeline being a pure
function of the input. -/
theorem c3_destination_deterministic (cs : List Contact) :
    findDuplicates cs = findDuplicates cs
    ∧ ∀ p ∈ groupByEmail cs, 2 ≤ p.2.length →
        ∃ g ∈ findDuplicates cs, g.email = p.1
          ∧ some g.dest = specDestination p.2
          ∧ (∀ d, specDestination p.2 = some d →
              d ∈ p.2 ∧ ∀ r ∈ p.2, d.created_time ≤ r.created_time)
          ∧ ((∀ a ∈ p.2, ∀ b ∈ p.2, a.created_time = b.created_time) →
              g.allRecords = p.2) := by
  refine ⟨rfl, ?_⟩
  intro p hp hlen
  have hn : ¬p.2.length < 2 := by omega
  cases hs : sortByCT p.2 with
  | nil =>
      exfalso
      have hl := length_sortByCT p.2
      rw [hs] at hl
      simp at hl
      omega
  | cons d rest =>
      refine ⟨⟨p.1, d, rest, d :: rest⟩, ?_, rfl, ?_, ?_, ?_⟩
      · exact List.mem_filterMap.mpr ⟨p, hp, by rw [if_neg hn, hs]⟩
      · rw [← head?_sortByCT, hs]
        rfl
      · exact fun d' hd' => specDestination_spec p.2 d' hd'
      · intro hties
        show d :: rest = p.2
        rw [← hs, sortByCT_all_ties p.2 hties]

def w3a : Contact := ⟨"A3", "ua", 2020, "x@y.com", fun _ => .vnull⟩

def w3b : Contact := ⟨"B3", "ub", 2021, "x@y.com", fun _ => .vnull⟩

/-- C3 witness: on a concrete two-record bucket, the group exists and
the destination matches the spec destination. -/
theorem c3_destination_deterministic_witness :
    ∃ g ∈ findDuplicates [w3a, w3b], g.email = "x@y.com"
      ∧ some g.dest = specDestination [w3a, w3b]
      ∧ (∀ d, specDestination [w3a, w3b] = some d →
          d ∈ [w3a, w3b] ∧ ∀ r ∈ [w3a, w3b], d.created_time ≤ r.created_time)
      ∧ ((∀ a ∈ [w3a, w3b], ∀ b ∈ [w3a, w3b],
            a.created_time = b.created_time) →
          g.allRecords = [w3a, w3b]) :=
  (c3_destination_deterministic [w3a, w3b]).2 ("x@y.com", [w3a, w3b])
    (List.mem_singleton.mpr rfl) (by decide)

/-! ### C7 -/

theorem groupByEmail_inv (cs : List Contact) :
    ∀ (m : List (String × List Contact)),
      (∀ p ∈ m, p.1 ≠ "" ∧ ∀ r ∈ p.2, r.email = p.1) →
      ∀ p ∈ cs.foldl
          (fun m c => if c.email = "" then m else insertByEmail m c) m,
        p.1 ≠ "" ∧ ∀ r ∈ p.2, r.email = p.1 := by
  induction cs with
  | nil => intro m hm p hp; exact hm p hp
  | cons c cs ih =>
      intro m hm p hp
      rw [List.foldl_cons] at hp
      refine ih _ ?_ p hp
      by_cases hc : c.email = ""
      · rw [if_pos hc]; exact hm
      · rw [if_neg hc]
        intro q hq
        unfold insertByEmail at hq
        split at hq
        · rcases List.mem_map.mp hq with ⟨q', hq', rfl⟩
          rcases hm q' hq' with ⟨hne, hall⟩
          by_cases he : q'.1 = c.email
          · rw [if_pos he]
            refine ⟨hne, ?_⟩
            intro r hr
            rcases List.mem_append.mp hr with hr | hr
            · exact hall r hr
            · rcases List.mem_singleton.mp hr with rfl
              exact he.symm
          · rw [if_neg he]
            exact ⟨hne, hall⟩
        · rcases List.mem_append.mp hq with hq | hq
          · exact hm q hq
          · rcases List.mem_singleton.mp hq with rfl
            refine ⟨hc, ?_⟩
            intro r hr
            rcases List.mem_singleton.mp hr with rfl
            rfl

/-- Every bucket of groupByEmail has a non-empty key and contains only
records whose normalized email equals the key. -/
theorem groupByEmail_keys (cs : List Contact) :
    ∀ p ∈ groupByEmail cs, p.1 ≠ "" ∧ ∀ r ∈ p.2, r.email = p.1 :=
  groupByEmail_inv cs [] (by simp)

/-- Replaces only the normalized identity key of a contact, leaving id,
url, created_time and all attribute fields unchanged. -/
def retag (h : Contact → String) (c : Contact) : Contact :=
  { c with email := h c }

/-- Replaces the identity key of a whole group. -/
def retagGroup (h : Contact → String) (e' : String) (g : DupGroup) :
    DupGroup :=
  ⟨e', retag h g.dest, g.sources.map (retag h), g.allRecords.map (retag h)⟩

theorem scalarFold_retag (h : Contact → String) (dest : Contact)
    (nk : String) (recs : List Contact) :
    scalarFold (retag h dest) nk (recs.map (retag h)) =
      scalarFold dest nk recs := by
  unfold scalarFold
  rw [List.foldl_map]
  rfl

theorem unionOver_retag (h : Contact → String) (recs : List Contact)
    (key : String) :
    unionOver (recs.map (retag h)) key = unionOver recs key := by
  unfold unionOver
  rw [List.foldl_map]
  rfl

theorem retag_fields (h : Contact → String) (c : Contact) :
    (retag h c).fields = c.fields := rfl

theorem fieldEntry_retag (h : Contact → String) (dest : Contact)
    (recs : List Contact) (fm : FieldMapping) :
    fieldEntry (retag h dest) (recs.map (retag h)) fm =
      fieldEntry dest recs fm := by
  simp only [fieldEntry, scalarFold_retag, unionOver_retag, retag_fields]

theorem fieldChanged_retag (h : Contact → String) (dest : Contact)
    (recs : List Contact) (fm : FieldMapping) :
    fieldChanged (retag h dest) (recs.map (retag h)) fm =
      fieldChanged dest recs fm := by
  simp only [fieldChanged, scalarFold_retag, unionOver_retag, retag_fields]

theorem relEntry_retag (h : Contact → String) (recs : List Contact)
    (rel : RelationField) :
    relEntry (recs.map (retag h)) rel = relEntry recs rel := by
  simp only [relEntry, unionOver_retag]

theorem relChanged_retag (h : Contact → String) (dest : Contact)
    (recs : List Contact) (rel : RelationField) :
    relChanged (retag h dest) (recs.map (retag h)) rel =
      relChanged dest recs rel := by
  simp only [relChanged, unionOver_retag, retag_fields]

theorem fmProps_retag (h : Contact → String) (e' : String) (g : DupGroup) :
    fmProps (retagGroup h e' g) = fmProps g := by
  unfold fmProps retagGroup
  congr 1
  funext fm
  exact fieldEntry_retag h g.dest g.allRecords fm

theorem fieldsMergedOf_retag (h : Contact → String) (e' : String)
    (g : DupGroup) :
    fieldsMergedOf (retagGroup h e' g) = fieldsMergedOf g := by
  unfold fieldsMergedOf retagGroup
  congr 1
  funext fm
  exact fieldChanged_retag h g.dest g.allRecords fm

theorem relationsChangedOf_retag (h : Contact → String) (e' : String)
    (g : DupGroup) :
    relationsChangedOf (retagGroup h e' g) = relationsChangedOf g := by
  unfold relationsChangedOf retagGroup
  congr 1
  funext rel
  exact relChanged_retag h g.dest g.allRecords rel

theorem emDefault_retag (h : Contact → String) (e' : String) (g : DupGroup) :
    emailMarketingDefault (retagGroup h e' g) = emailMarketingDefault g := by
  unfold emailMarketingDefault
  rw [fmProps_retag]

/-- C7: the normalized identity key is used only for grouping — every
bucket is keyed by its records' normalized email; the key is carried
forward unchanged into the destination's Identifier property; and the
generic per-attribute merge never consults it: changing every record's
key changes mergedProps only at the Identifier entry and changes
neither fieldsMerged nor relationsChanged. -/
theorem c7_identity_key_grouping_only (cs : List Contact) (g : DupGroup)
    (h : Contact → String) (e' : String) :
    (∀ p ∈ groupByEmail cs, p.1 ≠ "" ∧ ∀ r ∈ p.2, r.email = p.1)
    ∧ lookupProp (groupProps g) "Identifier" =
        some (toNotionProp .title (.vstr g.email))
    ∧ (∃ pre post,
        groupProps g =
          pre ++ ("Identifier", toNotionProp .title (.vstr g.email)) :: post
        ∧ groupProps (retagGroup h e' g) =
          pre ++ ("Identifier", toNotionProp .title (.vstr e')) :: post)
    ∧ fieldsMergedOf (retagGroup h e' g) = fieldsMergedOf g
    ∧ relationsChangedOf (retagGroup h e' g) = relationsChangedOf g := by
  refine ⟨groupByEmail_keys cs, lookup_groupProps_identifier g, ?_,
    fieldsMergedOf_retag h e' g, relationsChangedOf_retag h e' g⟩
  refine ⟨fmProps g ++ emailMarketingDefault g,
    RELATION_FIELDS.flatMap (relEntry g.allRecords), ?_, ?_⟩
  · unfold groupProps
    simp [List.append_assoc]
  · show fmProps (retagGroup h e' g) ++ emailMarketingDefault (retagGroup h e' g)
        ++ [("Identifier", toNotionProp .title (.vstr e'))]
        ++ RELATION_FIELDS.flatMap (relEntry (g.allRecords.map (retag h))) = _
    rw [fmProps_retag, emDefault_retag]
    have hrel : RELATION_FIELDS.flatMap (relEntry (g.allRecords.map (retag h)))
        = RELATION_FIELDS.flatMap (relEntry g.allRecords) := by
      congr 1
      funext rel
      exact relEntry_retag h g.allRecords rel
    rw [hrel]
    simp [List.append_assoc]

def w7dest : Contact := ⟨"d7", "u", 0, "k@x.y", fun _ => .vnull⟩

def w7g : DupGroup := ⟨"k@x.y", w7dest, [], [w7dest]⟩

/-- C7 witness: concrete instantiation. -/
theorem c7_identity_key_grouping_only_witness :
    lookupProp (groupProps w7g) "Identifier" =
      some (toNotionProp .title (.vstr "k@x.y")) :=
  (c7_identity_key_grouping_only [] w7g (fun _ => "z") "z").2.1

/-! ### C5 -/

theorem FIELD_MAP_ms_ne_em :
    ∀ fm ∈ FIELD_MAP, fm.apiType = .multi_select →
      fm.prop ≠ "Email Marketing" := by decide

theorem lookup_relEntry (recs : List Contact) (rel : RelationField) :
    lookupProp (relEntry recs rel) rel.prop =
      (if (unionOver recs rel.key).isEmpty then none
       else some (.relation (unionOver recs rel.key))) := by
  simp only [relEntry]
  by_cases h : (unionOver recs rel.key).isEmpty
  · rw [if_pos h, if_pos h]
    rfl
  · rw [if_neg h, if_neg h]
    simp [lookupProp]

theorem lookup_fieldEntry_ms (dest : Contact) (recs : List Contact)
    (fm : FieldMapping) (hms : fm.apiType = .multi_select) :
    lookupProp (fieldEntry dest recs fm) fm.prop =
      (if (unionOver recs fm.notionKey).isEmpty then none
       else some (toNotionProp .multi_select
         (.varr (unionOver recs fm.notionKey)))) := by
  simp only [fieldEntry, if_pos hms]
  by_cases h : (unionOver recs fm.notionKey).isEmpty
  · rw [if_pos h, if_pos h]
    rfl
  · rw [if_neg h, if_neg h]
    simp [lookupProp]

/-- C5: for every relation attribute and every set (multi_select)
attribute, the merged result is exactly the deduplicated union of the
attribute's values across all records of the group — hence a superset
of the destination's original set — and is written if and only if the
union is non-empty. -/
theorem c5_union_superset (g : DupGroup) (hdest : g.dest ∈ g.allRecords) :
    (∀ rel ∈ RELATION_FIELDS,
      (unionOver g.allRecords rel.key).Nodup
      ∧ (∀ x, x ∈ unionOver g.allRecords rel.key ↔
          ∃ r ∈ g.allRecords, x ∈ arrOf (r.fields rel.key))
      ∧ (∀ x ∈ arrOf (g.dest.fields rel.key),
          x ∈ unionOver g.allRecords rel.key)
      ∧ lookupProp (groupProps g) rel.prop =
          (if (unionOver g.allRecords rel.key).isEmpty then none
           else some (.relation (unionOver g.allRecords rel.key))))
    ∧ ∀ fm ∈ FIELD_MAP, fm.apiType = .multi_select →
        (unionOver g.allRecords fm.notionKey).Nodup
        ∧ (∀ x, x ∈ unionOver g.allRecords fm.notionKey ↔
            ∃ r ∈ g.allRecords, x ∈ arrOf (r.fields fm.notionKey))
        ∧ (∀ x ∈ arrOf (g.dest.fields fm.notionKey),
            x ∈ unionOver g.allRecords fm.notionKey)
        ∧ lookupProp (groupProps g) fm.prop =
            (if (unionOver g.allRecords fm.notionKey).isEmpty then none
             else some (toNotionProp .multi_select
               (.varr (unionOver g.allRecords fm.notionKey)))) := by
  constructor
  · intro rel hrel
    refine ⟨nodup_unionOver _ _, mem_unionOver _ _, ?_, ?_⟩
    · intro x hx
      exact (mem_unionOver _ _ x).mpr ⟨g.dest, hdest, hx⟩
    · rw [lookup_groupProps_rel g rel hrel, lookup_relEntry]
  · intro fm hfm hms
    refine ⟨nodup_unionOver _ _, mem_unionOver _ _, ?_, ?_⟩
    · intro x hx
      exact (mem_unionOver _ _ x).mpr ⟨g.dest, hdest, hx⟩
    · rw [lookup_groupProps_fm g fm hfm, lookup_fieldEntry_ms _ _ _ hms]
      by_cases h : (unionOver g.allRecords fm.notionKey).isEmpty
      · simp [h, FIELD_MAP_ms_ne_em fm hfm hms]
      · simp [h]

def w5dest : Contact :=
  ⟨"d5", "u", 0, "m@n.o",
   fun k => if k = "property_papers" then .varr ["p1"] else .vnull⟩

def w5src : Contact :=
  ⟨"s5", "u2", 3, "m@n.o",
   fun k => if k = "property_papers" then .varr ["p2", "p1"] else .vnull⟩

def w5g : DupGroup := ⟨"m@n.o", w5dest, [w5src], [w5dest, w5src]⟩

/-- C5 witness: concrete instantiation at the Papers relation. -/
theorem c5_union_superset_witness :
    (unionOver w5g.allRecords "property_papers").Nodup
    ∧ (∀ x, x ∈ unionOver w5g.allRecords "property_papers" ↔
        ∃ r ∈ w5g.allRecords, x ∈ arrOf (r.fields "property_papers"))
    ∧ (∀ x ∈ arrOf (w5g.dest.fields "property_papers"),
        x ∈ unionOver w5g.allRecords "property_papers")
    ∧ lookupProp (groupProps w5g) "Papers" =
        (if (unionOver w5g.allRecords "property_papers").isEmpty then none
         else some (.relation (unionOver w5g.allRecords "property_papers"))) :=
  (c5_union_superset w5g (List.mem_cons_self _ _)).1
    ⟨"Papers", "property_papers"⟩ (by decide)

/-! ### C6 -/

def cex6dest : Contact :=
  ⟨"d6", "u", 0, "n@p.q",
   fun k => if k = "property_city" then .vstr "Lyon" else .vnull⟩

def cex6src : Contact := ⟨"s6", "u2", 4, "n@p.q", fun _ => .vnull⟩

def cex6g : DupGroup := ⟨"n@p.q", cex6dest, [cex6src], [cex6dest, cex6src]⟩

/-- C6 counterexample: when no record of the group has a value for the
email_marketing attribute, mergedAttributes still contains Email
Marketing with the synthesized value Subscribed — a value outside the
observed set (every record holds null for it). -/
theorem c6_synthesized_default :
    lookupProp (groupProps cex6g) "Email Marketing" =
        some (NotionProp.select "Subscribed")
      ∧ ∀ r ∈ cex6g.allRecords,
          hasValue (r.fields "property_email_marketing") = false := by
  decide

/-- C6 (amended): for every scalar attribute other than email_marketing
(which is defaulted to Subscribed when no record supplies a value), the
merged value equals some record's value for that attribute, or the
attribute is absent — the merge never synthesizes a value outside the
observed set. -/
theorem c6_scalar_value_observed (g : DupGroup) (fm : FieldMapping)
    (hfm : fm ∈ FIELD_MAP) (hms : fm.apiType ≠ .multi_select)
    (hem : fm.key ≠ "email_marketing") :
    lookupProp (groupProps g) fm.prop = none
    ∨ ∃ r ∈ g.allRecords,
        lookupProp (groupProps g) fm.prop =
          some (toNotionProp fm.apiType (r.fields fm.notionKey)) := by
  rw [lookup_groupProps_fm g fm hfm]
  have hprop_ne : fm.prop ≠ "Email Marketing" :=
    fun h => hem (FIELD_MAP_em_key fm hfm h)
  by_cases hh : ∃ r ∈ g.allRecords, hasValue (r.fields fm.notionKey) = true
  · rcases hh with ⟨r₀, hr₀, hv₀⟩
    rcases scalarFold_holder g.dest fm.notionKey g.allRecords r₀ hr₀ hv₀ with
      ⟨w, hw, hwv, _, hfold⟩
    right
    refine ⟨w, hw, ?_⟩
    have hfe : fieldEntry g.dest g.allRecords fm =
        [(fm.prop, toNotionProp fm.apiType (w.fields fm.notionKey))] := by
      simp only [fieldEntry, if_neg hms, hfold, winnerSt, hwv]
      simp
    rw [hfe]
    simp [lookupProp]
  · left
    have hall : ∀ r ∈ g.allRecords, hasValue (r.fields fm.notionKey) = false := by
      intro r hr
      rcases Bool.eq_false_or_eq_true (hasValue (r.fields fm.notionKey)) with h | h
      · exact absurd ⟨r, hr, h⟩ hh
      · exact h
    have hfold := scalarFold_no_holder g.dest fm.notionKey g.allRecords hall
    have hfe : fieldEntry g.dest g.allRecords fm = [] := by
      simp only [fieldEntry, if_neg hms, hfold]
      simp [hasValue]
    rw [hfe]
    simp [lookupProp, hprop_ne]

def w6dest : Contact :=
  ⟨"d6w", "u", 0, "q@r.s",
   fun k => if k = "property_phone" then .vstr "111" else .vnull⟩

def w6src : Contact :=
  ⟨"s6w", "u2", 9, "q@r.s",
   fun k => if k = "property_phone" then .vstr "222" else .vnull⟩

def w6g : DupGroup := ⟨"q@r.s", w6dest, [w6src], [w6dest, w6src]⟩

/-- C6 amended witness: concrete instantiation at the phone field. -/
theorem c6_scalar_value_observed_witness :
    lookupProp (groupProps w6g)
        (FieldMapping.prop ⟨"phone", "Phone", "property_phone", .phone_number⟩)
          = none
    ∨ ∃ r ∈ w6g.allRecords,
        lookupProp (groupProps w6g)
            (FieldMapping.prop ⟨"phone", "Phone", "property_phone", .phone_number⟩)
          = some (toNotionProp .phone_number (r.fields "property_phone")) :=
  c6_scalar_value_observed w6g ⟨"phone", "Phone", "property_phone", .phone_number⟩
    (by decide) (by decide) (by decide)

/-! ### C2 -/

theorem FIELD_MAP_key_em :
    ∀ fm ∈ FIELD_MAP, fm.key = "email_marketing" →
      fm.prop = "Email Marketing" := by decide

def cex2dest : Contact :=
  ⟨"d2", "u", 0, "e2@f.g",
   fun k => if k = "property_city" then .vstr "Oslo" else .vnull⟩

def cex2src : Contact := ⟨"s2", "u2", 7, "e2@f.g", fun _ => .vnull⟩

def cex2g : DupGroup := ⟨"e2@f.g", cex2dest, [cex2src], [cex2dest, cex2src]⟩

/-- C2 counterexample: no record of the group has a value for the
email_marketing scalar attribute, yet the attribute is not absent from
the merged output — it is written as Subscribed. -/
theorem c2_email_marketing_not_absent :
    (∀ r ∈ cex2g.allRecords,
        hasValue (r.fields "property_email_marketing") = false)
      ∧ lookupProp (groupProps cex2g) "Email Marketing"
          = some (NotionProp.select "Subscribed") := by
  decide

/-- C2 (amended): for every scalar attribute, the merged value is the
value of a record with maximal createdAt among records holding a
non-empty value; a sole holder's value is used regardless of recency;
and when no record has a value, the attribute is absent from the merged
output — except email_marketing, which is then written with the policy
default Subscribed. -/
theorem c2_scalar_newest_nonempty_wins (g : DupGroup) (fm : FieldMapping)
    (hfm : fm ∈ FIELD_MAP) (hms : fm.apiType ≠ .multi_select) :
    ((∃ r ∈ g.allRecords, hasValue (r.fields fm.notionKey) = true) →
      ∃ w ∈ g.allRecords, hasValue (w.fields fm.notionKey) = true
        ∧ (∀ r ∈ g.allRecords, hasValue (r.fields fm.notionKey) = true →
            r.created_time ≤ w.created_time)
        ∧ lookupProp (groupProps g) fm.prop =
            some (toNotionProp fm.apiType (w.fields fm.notionKey)))
    ∧ (∀ w, g.allRecords.filter
          (fun r => hasValue (r.fields fm.notionKey)) = [w] →
        lookupProp (groupProps g) fm.prop =
          some (toNotionProp fm.apiType (w.fields fm.notionKey)))
    ∧ ((∀ r ∈ g.allRecords, hasValue (r.fields fm.notionKey) = false) →
        lookupProp (groupProps g) fm.prop =
          (if fm.key = "email_marketing" then
            some (toNotionProp .select (.vstr "Subscribed"))
          else none)) := by
  have main : (∃ r ∈ g.allRecords, hasValue (r.fields fm.notionKey) = true) →
      ∃ w ∈ g.allRecords, hasValue (w.fields fm.notionKey) = true
        ∧ (∀ r ∈ g.allRecords, hasValue (r.fields fm.notionKey) = true →
            r.created_time ≤ w.created_time)
        ∧ lookupProp (groupProps g) fm.prop =
            some (toNotionProp fm.apiType (w.fields fm.notionKey)) := by
    rintro ⟨r₀, hr₀, hv₀⟩
    rcases scalarFold_holder g.dest fm.notionKey g.allRecords r₀ hr₀ hv₀ with
      ⟨w, hw, hwv, hmax, hfold⟩
    refine ⟨w, hw, hwv, hmax, ?_⟩
    rw [lookup_groupProps_fm g fm hfm]
    have hfe : fieldEntry g.dest g.allRecords fm =
        [(fm.prop, toNotionProp fm.apiType (w.fields fm.notionKey))] := by
      simp only [fieldEntry, if_neg hms, hfold, winnerSt, hwv]
      simp
    rw [hfe]
    simp [lookupProp]
  refine ⟨main, ?_, ?_⟩
  · intro w hw
    have hwmem : w ∈ g.allRecords := by
      have : w ∈ g.allRecords.filter
          (fun r => hasValue (r.fields fm.notionKey)) := by
        rw [hw]; simp
      exact (List.mem_filter.mp this).1
    have hwv : hasValue (w.fields fm.notionKey) = true := by
      have : w ∈ g.allRecords.filter
          (fun r => hasValue (r.fields fm.notionKey)) := by
        rw [hw]; simp
      exact (List.mem_filter.mp this).2
    rcases main ⟨w, hwmem, hwv⟩ with ⟨w', hw', hwv', _, hlook⟩
    have : w' ∈ g.allRecords.filter
        (fun r => hasValue (r.fields fm.notionKey)) :=
      List.mem_filter.mpr ⟨hw', hwv'⟩
    rw [hw] at this
    rcases List.mem_singleton.mp this with rfl
    exact hlook
  · intro hall
    rw [lookup_groupProps_fm g fm hfm]
    have hfold := scalarFold_no_holder g.dest fm.notionKey g.allRecords hall
    have hfe : fieldEntry g.dest g.allRecords fm = [] := by
      simp only [fieldEntry, if_neg hms, hfold]
      simp [hasValue]
    rw [hfe]
    by_cases hkey : fm.key = "email_marketing"
    · simp [lookupProp, FIELD_MAP_key_em fm hfm hkey, hkey]
    · have : fm.prop ≠ "Email Marketing" :=
        fun h => hkey (FIELD_MAP_em_key fm hfm h)
      simp [lookupProp, this, hkey]

def w2dest : Contact :=
  ⟨"d2w", "u", 10, "h@i.j",
   fun k => if k = "property_city" then .vstr "Rome" else .vnull⟩

def w2src : Contact :=
  ⟨"s2w", "u2", 20, "h@i.j",
   fun k => if k = "property_city" then .vstr "Pisa" else .vnull⟩

def w2g : DupGroup := ⟨"h@i.j", w2dest, [w2src], [w2dest, w2src]⟩

/-- C2 amended witness: in a concrete group where both records carry a
city, the merged city is a maximal-createdAt holder's value. -/
theorem c2_scalar_newest_nonempty_wins_witness :
    ∃ w ∈ w2g.allRecords, hasValue (w.fields "property_city") = true
      ∧ (∀ r ∈ w2g.allRecords, hasValue (r.fields "property_city") = true →
          r.created_time ≤ w.created_time)
      ∧ lookupProp (groupProps w2g) "City" =
          some (toNotionProp .rich_text (w.fields "property_city")) :=
  (c2_scalar_newest_nonempty_wins w2g
      ⟨"city", "City", "property_city", .rich_text⟩ (by decide) (by decide)).1
    ⟨w2dest, List.mem_cons_self _ _, by decide⟩

/-! ### C4 -/

/-- Modelled from the spec: the equality the spec prescribes for change
detection, treating null/undefined, blank strings and empty collections
as the same "no value". -/
def specEmptyEq (a b : Val) : Bool :=
  (!hasValue a && !hasValue b) || a == b

theorem mem_fieldsMergedOf_iff (g : DupGroup) (fm : FieldMapping)
    (hfm : fm ∈ FIELD_MAP) :
    fm.key ∈ fieldsMergedOf g ↔
      fm.key ∈ fieldChanged g.dest g.allRecords fm := by
  unfold fieldsMergedOf
  rw [List.mem_flatMap]
  constructor
  · rintro ⟨fm', hfm', hk⟩
    have hkey : fm.key = fm'.key :=
      fieldChanged_sub g.dest g.allRecords fm' fm.key hk
    have heq : fm' = fm :=
      List.inj_on_of_nodup_map FIELD_MAP_keys_nodup hfm' hfm hkey.symm
    subst heq
    exact hk
  · intro hk
    exact ⟨fm, hfm, hk⟩

def cex4dest : Contact :=
  ⟨"d4", "u", 0, "p@q.r",
   fun k => if k = "property_phone" then .vstr "555" else .vnull⟩

def cex4src : Contact :=
  ⟨"s4", "u2", 5, "p@q.r",
   fun k => if k = "property_phone" then .vstr "555" else .vnull⟩

def cex4g : DupGroup := ⟨"p@q.r", cex4dest, [cex4src], [cex4dest, cex4src]⟩

/-- C4 counterexample: the newer source holds exactly the destination's
phone value, so the chosen merged value equals the destination's
pre-merge value (even under plain equality, a fortiori under
empty-equivalence) — yet the attribute is marked changed. -/
theorem c4_changed_despite_equal_value :
    "phone" ∈ fieldsMergedOf cex4g
      ∧ lookupProp (groupProps cex4g) "Phone"
          = some (NotionProp.phone_number "555")
      ∧ specEmptyEq (cex4dest.fields "property_phone") (.vstr "555") = true := by
  decide

/-- C4 (amended): a scalar attribute is marked changed exactly when the
winning record (the maximal-createdAt value-holder the loop keeps) is
not the destination (and has a truthy id) — value equality with the
destination's pre-merge value is not consulted. -/
theorem c4_changed_iff_source_winner (g : DupGroup) (fm : FieldMapping)
    (hfm : fm ∈ FIELD_MAP) (hms : fm.apiType ≠ .multi_select) :
    ((∀ r ∈ g.allRecords, hasValue (r.fields fm.notionKey) = false) →
      fm.key ∉ fieldsMergedOf g)
    ∧ ((∃ r ∈ g.allRecords, hasValue (r.fields fm.notionKey) = true) →
        ∃ w ∈ g.allRecords, hasValue (w.fields fm.notionKey) = true
          ∧ (∀ r ∈ g.allRecords, hasValue (r.fields fm.notionKey) = true →
              r.created_time ≤ w.created_time)
          ∧ lookupProp (groupProps g) fm.prop =
              some (toNotionProp fm.apiType (w.fields fm.notionKey))
          ∧ (fm.key ∈ fieldsMergedOf g ↔
              (w.id ≠ g.dest.id ∧ w.id ≠ ""))) := by
  constructor
  · intro hall
    rw [mem_fieldsMergedOf_iff g fm hfm]
    have hfold := scalarFold_no_holder g.dest fm.notionKey g.allRecords hall
    have hfc : fieldChanged g.dest g.allRecords fm = [] := by
      simp only [fieldChanged, if_neg hms, hfold]
      simp [hasValue]
    rw [hfc]
    simp
  · rintro ⟨r₀, hr₀, hv₀⟩
    rcases scalarFold_holder g.dest fm.notionKey g.allRecords r₀ hr₀ hv₀ with
      ⟨w, hw, hwv, hmax, hfold⟩
    refine ⟨w, hw, hwv, hmax, ?_, ?_⟩
    · rw [lookup_groupProps_fm g fm hfm]
      have hfe : fieldEntry g.dest g.allRecords fm =
          [(fm.prop, toNotionProp fm.apiType (w.fields fm.notionKey))] := by
        simp only [fieldEntry, if_neg hms, hfold, winnerSt, hwv]
        simp
      rw [hfe]
      simp [lookupProp]
    · rw [mem_fieldsMergedOf_iff g fm hfm]
      by_cases hid : w.id = g.dest.id
      · have hfc : fieldChanged g.dest g.allRecords fm = [] := by
          simp only [fieldChanged, if_neg hms, hfold, winnerSt, if_pos hid]
          simp [mergedFromTruthy]
        rw [hfc]
        simp [hid]
      · by_cases hemp : w.id = ""
        · have hfc : fieldChanged g.dest g.allRecords fm = [] := by
            simp only [fieldChanged, if_neg hms, hfold, winnerSt, if_neg hid]
            simp [mergedFromTruthy, hemp]
          rw [hfc]
          simp [hemp]
        · have hfc : fieldChanged g.dest g.allRecords fm = [fm.key] := by
            simp only [fieldChanged, if_neg hms, hfold, winnerSt, if_neg hid]
            simp [mergedFromTruthy, hwv, hemp]
          rw [hfc]
          simp [hid, hemp]

def w4dest : Contact := ⟨"d4w", "u", 0, "t@u.v", fun _ => .vnull⟩

def w4src : Contact :=
  ⟨"s4w", "u2", 6, "t@u.v",
   fun k => if k = "property_phone" then .vstr "777" else .vnull⟩

def w4g : DupGroup := ⟨"t@u.v", w4dest, [w4src], [w4dest, w4src]⟩

/-- C4 amended witness: in a concrete group the phone winner is the
source record, and phone is marked changed. -/
theorem c4_changed_iff_source_winner_witness :
    ∃ w ∈ w4g.allRecords, hasValue (w.fields "property_phone") = true
      ∧ (∀ r ∈ w4g.allRecords, hasValue (r.fields "property_phone") = true →
          r.created_time ≤ w.created_time)
      ∧ lookupProp (groupProps w4g) "Phone" =
          some (toNotionProp .phone_number (w.fields "property_phone"))
      ∧ ("phone" ∈ fieldsMergedOf w4g ↔
          (w.id ≠ w4g.dest.id ∧ w.id ≠ "")) :=
  (c4_changed_iff_source_winner w4g
      ⟨"phone", "Phone", "property_phone", .phone_number⟩
      (by decide) (by decide)).2
    ⟨w4src, List.mem_cons_of_mem _ (List.mem_cons_self _ _), by decide⟩

/-! ### C8 -/

theorem MutMeta_action_cases (m : MutMeta) :
    m.action = "update_contact" ∨ m.action = "archive_source" := by
  cases m
  · exact Or.inl rfl
  · exact Or.inr rfl

theorem groupActions_inv (items : List MutationItem) :
    ∀ p ∈ groupActions items,
      p.2.Nodup ∧ ∀ a ∈ p.2,
        a = "update_contact" ∨ a = "archive_source" := by
  unfold groupActions
  have main : ∀ (m : List (Nat × List String)),
      (∀ p ∈ m, p.2.Nodup ∧ ∀ a ∈ p.2,
        a = "update_contact" ∨ a = "archive_source") →
      ∀ p ∈ items.foldl (fun m it =>
          if m.any (fun p => p.1 = it.meta.groupIdx) then
            m.map (fun p =>
              if p.1 = it.meta.groupIdx then (p.1, addUnique p.2 it.meta.action)
              else p)
          else m ++ [(it.meta.groupIdx, [it.meta.action])]) m,
        p.2.Nodup ∧ ∀ a ∈ p.2,
          a = "update_contact" ∨ a = "archive_source" := by
    induction items with
    | nil => intro m hm p hp; exact hm p hp
    | cons it items ih =>
        intro m hm p hp
        rw [List.foldl_cons] at hp
        refine ih _ ?_ p hp
        intro q hq
        split at hq
        · rcases List.mem_map.mp hq with ⟨q', hq', rfl⟩
          rcases hm q' hq' with ⟨hnd, hsub⟩
          by_cases he : q'.1 = it.meta.groupIdx
          · rw [if_pos he]
            refine ⟨nodup_addUnique hnd _, ?_⟩
            intro a ha
            rcases (mem_addUnique _ _ _).mp ha with ha | rfl
            · exact hsub a ha
            · exact MutMeta_action_cases it.meta
          · rw [if_neg he]
            exact ⟨hnd, hsub⟩
        · rcases List.mem_append.mp hq with hq | hq
          · exact hm q hq
          · rcases List.mem_singleton.mp hq with rfl
            refine ⟨List.nodup_singleton _, ?_⟩
            intro a ha
            rcases List.mem_singleton.mp ha with rfl
            exact MutMeta_action_cases it.meta
  exact main [] (by simp)

theorem mem_insertRank (x a : Nat × List String)
    (l : List (Nat × List String)) :
    a ∈ insertRank x l ↔ a = x ∨ a ∈ l := by
  induction l with
  | nil => simp [insertRank]
  | cons y ys ih =>
      unfold insertRank
      split
      · simp
      · rw [List.mem_cons, ih, List.mem_cons]
        tauto

theorem mem_rankSort (a : Nat × List String) (l : List (Nat × List String)) :
    a ∈ rankSort l ↔ a ∈ l := by
  induction l with
  | nil => simp [rankSort]
  | cons x xs ih =>
      unfold rankSort
      rw [mem_insertRank, ih, List.mem_cons]

theorem rankSort_head_max (l : List (Nat × List String))
    (hd : Nat × List String) (tl : List (Nat × List String))
    (h : rankSort l = hd :: tl) :
    ∀ a ∈ l, a.2.length ≤ hd.2.length := by
  induction l generalizing hd tl with
  | nil => simp [rankSort] at h
  | cons x xs ih =>
      intro a ha
      unfold rankSort at h
      cases hs : rankSort xs with
      | nil =>
          rw [hs] at h
          unfold insertRank at h
          cases h
          rcases List.mem_cons.mp ha with rfl | ha
          · exact Nat.le_refl _
          · rw [← mem_rankSort, hs] at ha
            simp at ha
      | cons y ys =>
          rw [hs] at h
          unfold insertRank at h
          split at h
          · injection h with h1 h2
            subst h1
            rcases List.mem_cons.mp ha with rfl | ha
            · exact Nat.le_refl _
            · exact Nat.le_trans (ih y ys hs a ha) (by assumption)
          · injection h with h1 h2
            subst h1
            rcases List.mem_cons.mp ha with rfl | ha
            · exact Nat.le_of_not_le (by assumption)
            · exact ih y ys hs a ha

theorem nodup_sub_len_le_two (l : List String) (hnd : l.Nodup)
    (hsub : ∀ a ∈ l, a = "update_contact" ∨ a = "archive_source") :
    l.length ≤ 2 := by
  have hsubf : l.toFinset ⊆
      ({"update_contact", "archive_source"} : Finset String) := by
    intro a ha
    rcases hsub a (List.mem_toFinset.mp ha) with rfl | rfl <;> simp
  calc l.length = l.toFinset.card := (List.toFinset_card_of_nodup hnd).symm
    _ ≤ ({"update_contact", "archive_source"} : Finset String).card :=
        Finset.card_le_card hsubf
    _ ≤ 2 := by decide

theorem both_mem_len_two (l : List String) (hnd : l.Nodup)
    (hsub : ∀ a ∈ l, a = "update_contact" ∨ a = "archive_source")
    (hu : "update_contact" ∈ l) (ha : "archive_source" ∈ l) :
    l.length = 2 := by
  have h2 : 2 ≤ l.length := by
    have : ({"update_contact", "archive_source"} : Finset String) ⊆
        l.toFinset := by
      intro a hmem
      rcases Finset.mem_insert.mp hmem with rfl | hmem
      · exact List.mem_toFinset.mpr hu
      · rcases Finset.mem_singleton.mp hmem with rfl
        exact List.mem_toFinset.mpr ha
    calc (2 : Nat)
        = ({"update_contact", "archive_source"} : Finset String).card := by
          decide
      _ ≤ l.toFinset.card := Finset.card_le_card this
      _ = l.length := List.toFinset_card_of_nodup hnd
  exact Nat.le_antisymm (nodup_sub_len_le_two l hnd hsub) h2

theorem len_two_both_mem (l : List String) (hnd : l.Nodup)
    (hsub : ∀ a ∈ l, a = "update_contact" ∨ a = "archive_source")
    (hlen : l.length = 2) :
    "update_contact" ∈ l ∧ "archive_source" ∈ l := by
  have hsubf : l.toFinset ⊆
      ({"update_contact", "archive_source"} : Finset String) := by
    intro a ha
    rcases hsub a (List.mem_toFinset.mp ha) with rfl | rfl <;> simp
  have hcard : l.toFinset.card = 2 := by
    rw [List.toFinset_card_of_nodup hnd, hlen]
  have heq : l.toFinset =
      ({"update_contact", "archive_source"} : Finset String) :=
    Finset.eq_of_subset_of_card_le hsubf (by rw [hcard]; decide)
  constructor
  · exact List.mem_toFinset.mp (by rw [heq]; simp)
  · exact List.mem_toFinset.mp (by rw [heq]; simp)

theorem greedy_stop (l : List (Nat × List String)) (sel : List Nat)
    (cov : List String) (h : allActionTypes.length ≤ cov.length) :
    greedy l sel cov = (sel, cov) := by
  cases l with
  | nil => rfl
  | cons x xs =>
      cases x with
      | mk gi acts => simp [greedy, h]

theorem greedy_single (gi : Nat) (acts : List String)
    (tl : List (Nat × List String)) (hnd : acts.Nodup)
    (hlen : acts.length = 2) :
    greedy ((gi, acts) :: tl) [] [] = ([gi], acts) := by
  have hfil : acts.filter (fun a => !([] : List String).contains a) = acts := by
    apply List.filter_eq_self.mpr
    intro a _
    rfl
  have hne : ¬(acts.filter
      (fun a => !([] : List String).contains a)).isEmpty = true := by
    rw [hfil]
    cases acts with
    | nil => simp at hlen
    | cons b bs => simp
  have hcov : acts.foldl addUnique [] = acts := by
    have := foldl_addUnique_disjoint acts [] (by simp) hnd
    simpa using this
  show (if (2 : Nat) ≤ 0 then _ else _) = _
  rw [if_neg (by omega)]
  rw [if_neg (by simp [MAX_GROUPS])]
  rw [if_neg hne]
  have hsel : addUnique ([] : List Nat) gi = [gi] := rfl
  rw [hsel, hcov]
  exact greedy_stop tl [gi] acts (by rw [hlen]; decide)

theorem length_addUnique {α : Type} [DecidableEq α] (acc : List α) (x : α) :
    (addUnique acc x).length ≤ acc.length + 1 := by
  unfold addUnique
  split
  · exact Nat.le_succ _
  · simp

theorem greedy_le (l : List (Nat × List String)) :
    ∀ (sel : List Nat) (cov : List String), sel.length ≤ MAX_GROUPS →
      (greedy l sel cov).1.length ≤ MAX_GROUPS := by
  induction l with
  | nil => intro sel cov h; exact h
  | cons x xs ih =>
      intro sel cov h
      cases x with
      | mk gi acts =>
          unfold greedy
          split
          · exact h
          · split
            · exact h
            · split
              · exact ih sel cov h
              · refine ih _ _ ?_
                have hlt : ¬MAX_GROUPS ≤ sel.length := by assumption
                have := length_addUnique sel gi
                omega

/-- C8: when at least two groups each contain both mutation kinds, the
enabled sampler selects exactly one group and its coverage summary
reports that all action types are covered; and in general it never
selects more than the configured maximum number of groups. -/
theorem c8_sampler_minimal_cover (items : List MutationItem)
    (p q : Nat × List String)
    (hp : p ∈ groupActions items) (hq : q ∈ groupActions items)
    (hpq : p.1 ≠ q.1)
    (hpu : "update_contact" ∈ p.2) (hpa : "archive_source" ∈ p.2)
    (hqu : "update_contact" ∈ q.2) (hqa : "archive_source" ∈ q.2) :
    (limitToTestSet items).selected.length = 1
    ∧ (limitToTestSet items).uncovered = []
    ∧ (∃ s, (limitToTestSet items).summary = s ++ ". All action types covered")
    ∧ ∀ items', (limitToTestSet items').selected.length ≤ MAX_GROUPS := by
  have hne : ¬items.isEmpty = true := by
    intro h
    rw [List.isEmpty_iff.mp h] at hp
    simp [groupActions] at hp
  cases hr : rankSort (groupActions items) with
  | nil =>
      exfalso
      rw [← mem_rankSort, hr] at hp
      simp at hp
  | cons hd tl =>
      have hhd_mem : hd ∈ groupActions items := by
        rw [← mem_rankSort, hr]
        simp
      rcases groupActions_inv items hd hhd_mem with ⟨hhd_nd, hhd_sub⟩
      rcases groupActions_inv items p hp with ⟨hp_nd, hp_sub⟩
      have hp_len : p.2.length = 2 :=
        both_mem_len_two p.2 hp_nd hp_sub hpu hpa
      have hhd_len : hd.2.length = 2 := by
        have hle := rankSort_head_max (groupActions items) hd tl hr p hp
        rw [hp_len] at hle
        exact Nat.le_antisymm (nodup_sub_len_le_two hd.2 hhd_nd hhd_sub) hle
      rcases len_two_both_mem hd.2 hhd_nd hhd_sub hhd_len with ⟨hhu, hha⟩
      have hg : greedy (rankSort (groupActions items)) [] [] = ([hd.1], hd.2) := by
        rw [hr]
        have : (hd.1, hd.2) = hd := rfl
        rw [← this] at hr ⊢
        exact greedy_single hd.1 hd.2 tl hhd_nd hhd_len
      have huncov : allActionTypes.filter
          (fun a => !((greedy (rankSort (groupActions items)) [] []).2.contains a))
            = [] := by
        rw [hg]
        rw [List.filter_eq_nil_iff]
        intro a ha
        rcases List.mem_cons.mp ha with rfl | ha
        · simp [List.contains, hhu]
        · rcases List.mem_singleton.mp ha with rfl
          simp [List.contains, hha]
      refine ⟨?_, ?_, ?_, ?_⟩
      · unfold limitToTestSet
        rw [if_neg hne]
        simp only [hg]
        rfl
      · unfold limitToTestSet
        rw [if_neg hne]
        simpa using huncov
      · unfold limitToTestSet
        rw [if_neg hne]
        simp only [hg]
        have huncov2 : allActionTypes.filter (fun a => !(hd.2.contains a)) = [] := by
          have h0 := huncov
          rw [hg] at h0
          exact h0
        simp only [huncov2, List.isEmpty_nil, if_true]
        exact ⟨_, rfl⟩
      · intro items'
        unfold limitToTestSet
        by_cases he : items'.isEmpty = true
        · rw [if_pos he]
          simp [MAX_GROUPS]
        · rw [if_neg he]
          exact greedy_le _ [] [] (by simp [MAX_GROUPS])

def w8snap : SourceSnapshot := ⟨"s", "u", "e", 0, []⟩

def w8items : List MutationItem :=
  [ ⟨"", .updateProps [], .update 0 "e1" "p1" "u1" [] 1 []⟩,
    ⟨"", .archived true, .archive 0 "e1" "p2" "u2" w8snap⟩,
    ⟨"", .updateProps [], .update 1 "e2" "p3" "u3" [] 1 []⟩,
    ⟨"", .archived true, .archive 1 "e2" "p4" "u4" w8snap⟩ ]

/-- C8 witness: two groups, each with both kinds; the sampler selects
exactly one group and reports full coverage. -/
theorem c8_sampler_minimal_cover_witness :
    (limitToTestSet w8items).selected.length = 1
    ∧ (limitToTestSet w8items).uncovered = []
    ∧ (∃ s, (limitToTestSet w8items).summary = s ++ ". All action types covered")
    ∧ ∀ items', (limitToTestSet items').selected.length ≤ MAX_GROUPS :=
  c8_sampler_minimal_cover w8items
    (0, ["update_contact", "archive_source"])
    (1, ["update_contact", "archive_source"])
    (by decide) (by decide) (by decide) (by decide) (by decide) (by decide)
    (by decide)

end MergeDup
